import Mathlib

/-!
Verification development for the `cull` pattern-driven deletion utility.

The TypeScript sources are embedded shallowly:
* `matchesPattern` (src/utils/fileUtils.ts) translates a glob pattern to a
  JavaScript regular expression by the two substitutions `*` ↦ `.*` and
  `?` ↦ `.` and tests the anchored regex against the name.  We embed the
  fragment of JS regexes that these translated strings can produce
  (literals, `.`, postfix `*`/`+`); characters that begin regex constructs
  outside this fragment make the embedded parse fail (`none`), modelling
  the `SyntaxError` thrown by the `RegExp` constructor on the inputs our
  theorems use.
* the traversal functions `findDirectories`/`findItems` walk an explicit
  filesystem tree value; `findFiles` delegates to the external `glob`
  npm library and is modelled from the spec.
* the `DeletionEngine` is embedded as pure state-passing code; filesystem
  interaction is abstracted as oracles giving each path's stat result at
  removal time and whether an attempted removal succeeds, and prompt
  answers are oracles as well.  Performed removal attempts are recorded
  in an explicit `rmCalls` trace so that "no filesystem mutation" is the
  statement `rmCalls = []`.
-/

namespace Cull

/-! ## Pattern matcher (src/utils/fileUtils.ts, matchesPattern) -/

/-- Atom of the embedded regex fragment: a literal character or `.`. -/
inductive RAtom where
  | lit : Char → RAtom
  | dot : RAtom
deriving DecidableEq, Repr

/-- Token of the embedded regex fragment: an atom, or an atom under a
postfix `*` or `+` quantifier. -/
inductive RTok where
  | atom : RAtom → RTok
  | star : RAtom → RTok
  | plus : RAtom → RTok
deriving DecidableEq, Repr

/-- Whether a regex atom matches a single character. -/
def atomMatches : RAtom → Char → Bool
  | .lit c, d => c == d
  | .dot, _ => true

/-- The suffixes of `cs` reachable by consuming zero or more leading
characters that the atom `a` matches; a quantified atom consumes one of
these runs. -/
def starChoices (a : RAtom) : List Char → List (List Char)
  | [] => [[]]
  | c :: cs => (c :: cs) :: (if atomMatches a c then starChoices a cs else [])

/-- Acceptance of a token sequence against a whole string (the source
regex is anchored with `^`/`$`, which we model as full-string
acceptance).  Acceptance by trying every possible run for a quantified
atom coincides with the greedy JS semantics, since greediness affects
captures, not acceptance. -/
def regexAccept : List RTok → List Char → Bool
  | [], cs => cs.isEmpty
  | .atom a :: ts, cs =>
      match cs with
      | [] => false
      | c :: cs2 => atomMatches a c && regexAccept ts cs2
  | .star a :: ts, cs => (starChoices a cs).any (regexAccept ts)
  | .plus a :: ts, cs =>
      match cs with
      | [] => false
      | c :: cs2 => atomMatches a c && (starChoices a cs2).any (regexAccept ts)

/-- Characters that begin JS regex constructs outside the embedded
fragment (character classes, groups, escapes, alternation, anchors,
counted repetition).  A translated pattern containing one of them is not
given a meaning by this embedding; on the concrete inputs used in the
theorems below (a lone `[`) the `RegExp` constructor throws a
`SyntaxError`. -/
def regexUnsupported (c : Char) : Bool :=
  c == '[' || c == '(' || c == ')' || c == '\\' || c == '|' ||
    c == '^' || c == '$' || c == '{' || c == '?'

/-- Parser for the embedded regex fragment, processing the translated
character list left to right with an accumulator of already-parsed
tokens in reverse order.  A quantifier (`*`/`+`) attaches to the
previous unquantified atom; with nothing to repeat the parse fails, as
the `RegExp` constructor does ("Nothing to repeat"). -/
def parseRegexAux : List Char → List RTok → Option (List RTok)
  | [], acc => some acc.reverse
  | c :: cs, acc =>
    if c == '*' || c == '+' then
      match acc with
      | .atom a :: rest =>
          parseRegexAux cs ((if c == '*' then RTok.star a else RTok.plus a) :: rest)
      | _ => none
    else if regexUnsupported c then none
    else if c == '.' then parseRegexAux cs (.atom .dot :: acc)
    else parseRegexAux cs (.atom (.lit c) :: acc)

/-- Parse a translated pattern into the embedded regex fragment. -/
def parseRegex (cs : List Char) : Option (List RTok) :=
  parseRegexAux cs []

/-- The glob-to-regex translation of the source:
`pattern.replace` of every `*` by `.*` followed by `replace` of every
`?` by `.`.  The first substitution introduces no `?`, so the two
sequential global replaces act independently on each character of the
original pattern. -/
def globTranslate : List Char → List Char
  | [] => []
  | c :: cs =>
      (if c == '*' then ['.', '*'] else if c == '?' then ['.'] else [c]) ++ globTranslate cs

/-- `matchesPattern` of the source: translate the glob pattern and test
the anchored regex against the name.  `none` models a `SyntaxError`
thrown by the `RegExp` constructor (the translated pattern is not a
regex of the embedded fragment). -/
def matchesPattern (name pattern : String) : Option Bool :=
  (parseRegex (globTranslate pattern.toList)).map fun ts => regexAccept ts name.toList

/-- All suffixes of a character list, the runs a `*` wildcard can
consume. -/
def anySuffixes : List Char → List (List Char)
  | [] => [[]]
  | c :: cs => (c :: cs) :: anySuffixes cs

/-- The spec's PatternMatcher contract (§4.1), stated as its own
definition for comparison with the code: anchored full-string match,
`*` matches any run of characters, `?` exactly one character, every
other character only itself, case-sensitively. -/
def specGlobMatches : List Char → List Char → Bool
  | [], ns => ns.isEmpty
  | p :: ps, ns =>
    if p == '*' then (anySuffixes ns).any (specGlobMatches ps)
    else
      match ns with
      | [] => false
      | n :: ns2 => (p == '?' || p == n) && specGlobMatches ps ns2

/-- Direct token image of a glob pattern under translation-then-parse,
used to relate `matchesPattern` to `specGlobMatches`. -/
def globTokens : List Char → List RTok
  | [] => []
  | c :: cs =>
      (if c == '*' then [RTok.star .dot]
       else if c == '?' || c == '.' then [RTok.atom .dot]
       else [RTok.atom (.lit c)]) ++ globTokens cs

/-- Whether the translated pattern parses; this depends only on the
pattern, not on the name being tested. -/
def patParses (pattern : String) : Bool :=
  (parseRegex (globTranslate pattern.toList)).isSome

/-! ## Filesystem model and traversal (src/utils/fileUtils.ts) -/

/-- A filesystem directory listing in first-child/next-sibling form: a
forest is empty, a file entry followed by the remaining entries, or a
directory entry (with its own listing) followed by the remaining
entries.  Depth of the root listing's entries is 1 in the spec's
convention (the root directory itself has depth 0). -/
inductive FSForest where
  | nil : FSForest
  | fileCons : String → FSForest → FSForest
  | dirCons : String → FSForest → FSForest → FSForest
deriving DecidableEq, Repr

/-- The traversal guard of the source: `maxDepth !== undefined &&
currentDepth > maxDepth`. -/
def depthExceeded (md : Option Nat) (depth : Nat) : Bool :=
  match md with
  | some m => decide (depth > m)
  | none => false

/-- The body of `findDirectories.searchDir` applied to a directory
listing: a directory entry whose name matches the pattern is pushed
(path relative to the root), then its listing is searched at
`depth + 1` (the recursive call returns immediately when the depth
guard fires), then the remaining sibling entries are processed.  File
entries are skipped.  A `none` from `matchesPattern` models the
`RegExp` constructor throwing: the enclosing try/catch abandons the
rest of the current listing, keeping what was already collected. -/
def searchEntriesD (pat : String) (md : Option Nat) : Nat → List String → FSForest → List (List String)
  | _, _, .nil => []
  | depth, pre, .fileCons _ rest => searchEntriesD pat md depth pre rest
  | depth, pre, .dirCons n sub rest =>
    match matchesPattern n pat with
    | none => []
    | some b =>
      (if b then [pre ++ [n]] else [])
        ++ (if depthExceeded md (depth + 1) then []
            else searchEntriesD pat md (depth + 1) (pre ++ [n]) sub)
        ++ searchEntriesD pat md depth pre rest

/-- `findDirectories` of the source, producing paths as segment lists:
`searchDir(currentDir)` starts at depth 0 with the guard checked at
entry. -/
def findDirectoriesPaths (pat : String) (md : Option Nat) (root : FSForest) : List (List String) :=
  if depthExceeded md 0 then [] else searchEntriesD pat md 0 [] root

/-- The body of `findItems.searchDir`: every entry (file or directory)
whose name matches the pattern is pushed; directory listings are then
searched at `depth + 1`.  `none` as in `searchEntriesD`. -/
def searchEntriesI (pat : String) (md : Option Nat) : Nat → List String → FSForest → List (List String)
  | _, _, .nil => []
  | depth, pre, .fileCons n rest =>
    match matchesPattern n pat with
    | none => []
    | some b => (if b then [pre ++ [n]] else []) ++ searchEntriesI pat md depth pre rest
  | depth, pre, .dirCons n sub rest =>
    match matchesPattern n pat with
    | none => []
    | some b =>
      (if b then [pre ++ [n]] else [])
        ++ (if depthExceeded md (depth + 1) then []
            else searchEntriesI pat md (depth + 1) (pre ++ [n]) sub)
        ++ searchEntriesI pat md depth pre rest

/-- `findItems` of the source, producing paths as segment lists. -/
def findItemsPaths (pat : String) (md : Option Nat) (root : FSForest) : List (List String) :=
  if depthExceeded md 0 then [] else searchEntriesI pat md 0 [] root

/-- Whether a depth is within the configured bound (`d <= maxDepth`,
unbounded when unset). -/
def depthWithin (md : Option Nat) (d : Nat) : Bool :=
  match md with
  | some m => decide (d ≤ m)
  | none => true

/-- Modelled from the spec: `findFiles` delegates its walk and matching
to the external `glob` npm library, which is not part of this
repository.  Per the Traverser contract (§4.2) for PatternClass=Files:
only regular files are tested against the pattern, all directories are
descended into, and an entry at depth `d` (root 0, the root's immediate
entries at depth 1) is visited only if `maxDepth` is unset or
`d <= maxDepth`. -/
def searchEntriesF (pat : String) (md : Option Nat) : List String → FSForest → List (List String)
  | _, .nil => []
  | pre, .fileCons n rest =>
      (if specGlobMatches pat.toList n.toList && depthWithin md (pre.length + 1)
       then [pre ++ [n]] else [])
        ++ searchEntriesF pat md pre rest
  | pre, .dirCons n sub rest =>
      (if depthWithin md (pre.length + 1) then searchEntriesF pat md (pre ++ [n]) sub else [])
        ++ searchEntriesF pat md pre rest

/-- Modelled from the spec: `findFiles`, producing paths as segment
lists. -/
def findFilesPaths (pat : String) (md : Option Nat) (root : FSForest) : List (List String) :=
  searchEntriesF pat md [] root

/-- Render a segment-list path the way the source's `path.join` and
`path.relative` produce relative paths on a POSIX system: the segments
joined by `/`. -/
def renderPath : List String → String
  | [] => ""
  | [n] => n
  | n :: m :: rest => n ++ "/" ++ renderPath (m :: rest)

/-- `findDirectories` at the string level. -/
def findDirectories (pat : String) (md : Option Nat) (root : FSForest) : List String :=
  (findDirectoriesPaths pat md root).map renderPath

/-- `findItems` at the string level. -/
def findItems (pat : String) (md : Option Nat) (root : FSForest) : List String :=
  (findItemsPaths pat md root).map renderPath

/-- Modelled from the spec: `findFiles` at the string level. -/
def findFiles (pat : String) (md : Option Nat) (root : FSForest) : List String :=
  (findFilesPaths pat md root).map renderPath

/-- Whether a segment-list path addresses a directory entry of the
forest. -/
def dirAtPath : FSForest → List String → Bool
  | .nil, _ => false
  | .fileCons _ rest, p => dirAtPath rest p
  | .dirCons m sub rest, p =>
      match p with
      | [] => false
      | n :: q => (m == n && (q.isEmpty || dirAtPath sub q)) || dirAtPath rest (n :: q)

/-- Whether a segment-list path addresses a file entry of the forest. -/
def fileAtPath : FSForest → List String → Bool
  | .nil, _ => false
  | .fileCons m rest, p =>
      (match p with
       | [n] => m == n
       | _ => false) || fileAtPath rest p
  | .dirCons m sub rest, p =>
      match p with
      | [] => false
      | n :: q => (m == n && !q.isEmpty && fileAtPath sub q) || fileAtPath rest (n :: q)

/-- The last segment of a path (its basename); paths produced by the
traversal are never empty. -/
def lastName (p : List String) : String :=
  p.getLastD ""

/-! ## Exclusion filter and selection (src/utils/fileUtils.ts shouldExclude,
src/core/deletionEngine.ts collectItemsToDelete) -/

/-- Whether the first character list is an initial segment of the
second. -/
def isPreOf : List Char → List Char → Bool
  | [], _ => true
  | _ :: _, [] => false
  | a :: as, b :: bs => a == b && isPreOf as bs

/-- Whether `pat` occurs contiguously somewhere in the character list. -/
def containsAt (pat : List Char) : List Char → Bool
  | [] => isPreOf pat []
  | c :: cs => isPreOf pat (c :: cs) || containsAt pat cs

/-- JavaScript's `filePath.includes(pattern)`: literal substring
containment (the empty pattern is contained in every string). -/
def containsSubstr (s pat : String) : Bool :=
  containsAt pat.toList s.toList

/-- The characters after the last `/` of a character list. -/
def basenameChars (cs : List Char) : List Char :=
  cs.foldl (fun acc c => if c == '/' then [] else acc ++ [c]) []

/-- `path.basename` for the slash-separated relative paths the
traversal produces (which never carry a trailing slash): the part after
the last `/`. -/
def basename (s : String) : String :=
  String.mk (basenameChars s.toList)

/-- `shouldExclude` of the source: a path is excluded when some
exclusion pattern is a literal substring of the path or equals the
path's basename (plain string comparison, no glob matching). -/
def shouldExclude (filePath : String) (excludePatterns : List String) : Bool :=
  excludePatterns.any fun pattern =>
    containsSubstr filePath pattern || basename filePath == pattern

/-- The `OutputFormat` union type of src/types.ts. -/
inductive OutputFormat where
  | plain : OutputFormat
  | json : OutputFormat
deriving DecidableEq, Repr

/-- The `Config` record of src/types.ts (the log-file name is a pure
presentation concern and is omitted). -/
structure Config where
  dryRun : Bool
  interactive : Bool
  force : Bool
  preview : Bool
  outputFormat : OutputFormat
  maxDepth : Option Nat
  filesPattern : Option String
  foldersPattern : Option String
  typesPattern : Option String
  excludePatterns : List String
deriving DecidableEq, Repr

/-- Order-preserving deduplication keeping the first occurrence, the
effect of `[...new Set(allItems)]`. -/
def dedupFirstAux (seen : List String) : List String → List String
  | [] => []
  | x :: xs =>
      if seen.contains x then dedupFirstAux seen xs
      else x :: dedupFirstAux (x :: seen) xs

/-- `[...new Set(l)]`. -/
def dedupFirst (l : List String) : List String :=
  dedupFirstAux [] l

/-- Lexicographic comparison of character lists by character value,
the order underlying JavaScript's default `Array.prototype.sort`
string comparison (which compares code units; this agrees with
character-value comparison on all paths without surrogate-area
characters). -/
def charListLe : List Char → List Char → Bool
  | [], _ => true
  | _ :: _, [] => false
  | a :: as, b :: bs =>
      if a == b then charListLe as bs
      else decide (a.toNat < b.toNat)

/-- String comparison for the worklist sort. -/
def strLe (a b : String) : Bool :=
  charListLe a.toList b.toList

/-- Insert into a sorted list, preserving order. -/
def orderedInsert (a : String) : List String → List String
  | [] => [a]
  | b :: l => if strLe a b then a :: b :: l else b :: orderedInsert a l

/-- Insertion sort realising `Array.prototype.sort()`'s result: any
correct sort produces the same list, since sorted permutations of a
list agree up to the placement of equal elements (and the worklist is
deduplicated before sorting). -/
def sortStrings : List String → List String
  | [] => []
  | a :: l => orderedInsert a (sortStrings l)

/-- `DeletionEngine.collectItemsToDelete`: run the traversal for each
pattern class whose pattern is set (a JS truthiness test, so the empty
string also counts as unset), concatenate, deduplicate, drop excluded
paths, and sort ascending by the path string. -/
def collectItemsToDelete (cfg : Config) (root : FSForest) : List String :=
  let fileItems :=
    match cfg.filesPattern with
    | some p => if p == "" then [] else findFiles p cfg.maxDepth root
    | none => []
  let dirItems :=
    match cfg.foldersPattern with
    | some p => if p == "" then [] else findDirectories p cfg.maxDepth root
    | none => []
  let typeItems :=
    match cfg.typesPattern with
    | some p => if p == "" then [] else findItems p cfg.maxDepth root
    | none => []
  let allItems := fileItems ++ dirItems ++ typeItems
  let uniqueItems := dedupFirst allItems
  let kept := uniqueItems.filter fun item => !shouldExclude item cfg.excludePatterns
  sortStrings kept

/-- The part of the `DeletionEngine`'s state that
`collectItemsToDelete` touches. -/
structure SelState where
  itemsToDelete : List String
deriving DecidableEq, Repr

/-- `DeletionEngine.collectItemsToDelete` as a state update: the method
first resets `this.itemsToDelete` to `[]` and then rebuilds it from the
filesystem, so the previous worklist does not influence the result. -/
def runCollect (cfg : Config) (root : FSForest) (_st : SelState) : SelState :=
  { itemsToDelete := collectItemsToDelete cfg root }

/-! ## Deletion engine (src/core/deletionEngine.ts) and prompts
(src/utils/prompts.ts) -/

/-- The `LogLevel` union type of src/types.ts. -/
inductive LogLevel where
  | INFO : LogLevel
  | WARNING : LogLevel
  | ERROR : LogLevel
deriving DecidableEq, Repr

/-- What `fs.statSync` reports for a path at removal time: a regular
file, a directory, some other entry kind (FIFO, socket, ...), or absent
(`statSync` throws, which is also what a broken symbolic link
produces). -/
inductive EntryKind where
  | file : EntryKind
  | dir : EntryKind
  | other : EntryKind
  | absent : EntryKind
deriving DecidableEq, Repr

/-- The engine's external collaborators, abstracted as oracles: the
stat result each path will have at its removal time, whether an
attempted `rmSync`/`unlinkSync` on a path succeeds, the operator's
answer to the per-item prompt for each path, and the operator's answer
to the batch preview prompt.  The run is strictly sequential, so one
answer per path suffices for the claims below. -/
structure DelCtx where
  stat : String → EntryKind
  rmOk : String → Bool
  ans : String → Bool
  proceed : Bool

/-- The engine state that `processDeletions` mutates, plus two traces:
`rmCalls` records every path on which a removal was actually attempted
(the only filesystem mutations the engine performs), and `log` records
every `logger.log(message, level)` call. -/
structure DelState where
  deletedItems : List String
  failedDeletions : List String
  rmCalls : List String
  log : List (String × LogLevel)
deriving DecidableEq, Repr

/-- The engine's state at construction. -/
def initDelState : DelState :=
  { deletedItems := [], failedDeletions := [], rmCalls := [], log := [] }

/-- `confirmDeletion` of src/utils/prompts.ts: with `force` it resolves
`true` without prompting, otherwise it asks the operator (default
answer "no"). -/
def confirmDeletion (ctx : DelCtx) (item : String) (force : Bool) : Bool :=
  force || ctx.ans item

/-- `confirmProceed` of src/utils/prompts.ts: the batch preview
confirmation. -/
def confirmProceed (ctx : DelCtx) : Bool :=
  ctx.proceed

/-- `isDirectory` of src/utils/fileUtils.ts at removal time. -/
def isDirectory (ctx : DelCtx) (p : String) : Bool :=
  ctx.stat p == .dir

/-- `isFile` of src/utils/fileUtils.ts at removal time. -/
def isFile (ctx : DelCtx) (p : String) : Bool :=
  ctx.stat p == .file

/-- `deleteItem` of src/utils/fileUtils.ts: stat the path; remove a
directory recursively or a file directly, reporting whether the removal
succeeded; any other stat outcome (including `statSync` throwing)
yields `false` without attempting a removal. -/
def deleteItem (ctx : DelCtx) (p : String) : Bool :=
  match ctx.stat p with
  | .dir => ctx.rmOk p
  | .file => ctx.rmOk p
  | .other => false
  | .absent => false

/-- The warning line logged for an entry that is neither a file nor a
directory at removal time. -/
def notFoundMsg (item : String) : String :=
  s!"Item not found or already deleted: {item}"

/-- The heading line `displayPreview` logs before listing the worklist
(the items themselves go to the console, which is a presentation
concern). -/
def previewHeader (n : Nat) : String :=
  s!"Preview: Items that will be deleted ({n} items):"

/-- `DeletionEngine.deleteItem`: dry-run records a "would delete" and
stops; an interactive decline records a skip and stops; otherwise the
entry's current kind is re-checked and the removal attempted, recording
success or failure; a path that is neither a file nor a directory at
removal time only logs a warning. -/
def engineDeleteItem (cfg : Config) (ctx : DelCtx) (st : DelState) (item : String) : DelState :=
  if cfg.dryRun then
    { st with log := st.log ++ [(s!"Would delete: {item}", .INFO)],
              deletedItems := st.deletedItems ++ [item] }
  else if cfg.interactive && !confirmDeletion ctx item cfg.force then
    { st with log := st.log ++ [(s!"Skipped: {item}", .INFO)] }
  else if isDirectory ctx item then
    if deleteItem ctx item then
      { st with log := st.log ++ [(s!"Deleted directory: {item}", .INFO)],
                deletedItems := st.deletedItems ++ [item],
                rmCalls := st.rmCalls ++ [item] }
    else
      { st with log := st.log ++ [(s!"Failed to delete directory: {item}", .ERROR)],
                failedDeletions := st.failedDeletions ++ [item],
                rmCalls := st.rmCalls ++ [item] }
  else if isFile ctx item then
    if deleteItem ctx item then
      { st with log := st.log ++ [(s!"Deleted file: {item}", .INFO)],
                deletedItems := st.deletedItems ++ [item],
                rmCalls := st.rmCalls ++ [item] }
    else
      { st with log := st.log ++ [(s!"Failed to delete file: {item}", .ERROR)],
                failedDeletions := st.failedDeletions ++ [item],
                rmCalls := st.rmCalls ++ [item] }
  else
    { st with log := st.log ++ [(notFoundMsg item, .WARNING)] }

/-- The engine state after the optional `displayPreview` call at the
start of `processDeletions`: with `preview` set the worklist heading
has been logged, otherwise nothing has happened yet. -/
def previewState (cfg : Config) (items : List String) : DelState :=
  if cfg.preview then
    { initDelState with log := [(previewHeader items.length, .INFO)] }
  else initDelState

/-- `DeletionEngine.processDeletions` over the collected worklist: an
empty worklist only logs; otherwise, with `preview` set, the worklist
is displayed (logged) and, unless `dryRun` or `force` is set, a single
batch confirmation gates everything — a decline logs the cancellation
and returns with nothing processed; otherwise every item is processed
in worklist order. -/
def processDeletions (cfg : Config) (ctx : DelCtx) (items : List String) : DelState :=
  if items.isEmpty then
    { initDelState with log := [("No items to delete.", .INFO)] }
  else if cfg.preview && !cfg.dryRun && !cfg.force && !confirmProceed ctx then
    { previewState cfg items with
        log := (previewState cfg items).log ++ [("Deletion cancelled by user.", .INFO)] }
  else
    items.foldl (engineDeleteItem cfg ctx) (previewState cfg items)

/-- The `DeletionResult` record of src/types.ts. -/
structure DeletionResult where
  totalItems : Nat
  deleted : Nat
  failed : Nat
  dryRun : Bool
  failedItems : Option (List String)
deriving DecidableEq, Repr

/-- `DeletionEngine.getSummary`. -/
def getSummary (cfg : Config) (items : List String) (st : DelState) : DeletionResult :=
  { totalItems := items.length,
    deleted := st.deletedItems.length,
    failed := st.failedDeletions.length,
    dryRun := cfg.dryRun,
    failedItems := if st.failedDeletions.length > 0 then some st.failedDeletions else none }

/-- `DeletionEngine.getExitCode`: 1 when any deletion failed, else 0. -/
def getExitCode (st : DelState) : Nat :=
  if st.failedDeletions.length > 0 then 1 else 0

/-! ## CLI configuration and validation (src/bin/cli.ts) -/

/-- The result of `parseInt` on the `--depth` argument: a number or
`NaN`. -/
inductive ParsedNum where
  | nan : ParsedNum
  | num : Int → ParsedNum
deriving DecidableEq, Repr

/-- The options commander hands to `main` (presentation-only options
such as the log-file name are omitted). -/
structure RawOptions where
  files : Option String
  folders : Option String
  types : Option String
  exclude : List String
  depth : Option ParsedNum
  dryRun : Bool
  interactive : Bool
  preview : Bool
  force : Bool
  format : String
deriving DecidableEq, Repr

/-- JS truthiness test `!value` for an optional string: missing or
empty counts as unset. -/
def optionFalsy : Option String → Bool
  | none => true
  | some s => s == ""

/-- The `Config` object `main` builds from the parsed options.  Note
`outputFormat` is `options.format === 'json' ? 'json' : 'plain'`: every
value other than `"json"` is silently coerced to `plain`.  `maxDepth`
carries the parsed depth once validation has accepted it (validation
rejects `NaN` and values below 1 before the depth is ever used). -/
def buildConfig (o : RawOptions) : Config :=
  { dryRun := o.dryRun,
    interactive := o.interactive,
    force := o.force,
    preview := o.preview,
    outputFormat := if o.format == "json" then .json else .plain,
    maxDepth := match o.depth with
      | some (.num n) => some n.toNat
      | _ => none,
    filesPattern := o.files,
    foldersPattern := o.folders,
    typesPattern := o.types,
    excludePatterns := o.exclude }

/-- How far `main` gets: rejected by a validation check with an exit
code before any traversal, or reaching the traversal with the built
configuration. -/
inductive MainOutcome where
  | rejected : Nat → MainOutcome
  | ran : Config → MainOutcome
deriving DecidableEq, Repr

/-- The depth validation predicate of `main`:
`config.maxDepth !== undefined && (isNaN(config.maxDepth) || config.maxDepth < 1)`. -/
def badDepth : Option ParsedNum → Bool
  | none => false
  | some .nan => true
  | some (.num n) => decide (n < 1)

/-- The validation sequence of `main`, in source order.  With no
pattern supplied, `main` prints an error and calls `program.help()`;
commander's `help()` outputs the help text and exits the process
immediately with code 0, so the `process.exit(1)` written on the next
source line is unreachable and the run terminates with exit code 0.
The unrecognized-output-format check is dead code, since `buildConfig`
always yields `plain` or `json`.  A non-positive or non-numeric depth
calls `process.exit(1)` directly (no intervening `help()`).  Passing
all checks reaches the traversal. -/
def mainValidate (o : RawOptions) : MainOutcome :=
  let config := buildConfig o
  if optionFalsy config.filesPattern && optionFalsy config.foldersPattern &&
      optionFalsy config.typesPattern then
    .rejected 0
  else if !(config.outputFormat == .plain) && !(config.outputFormat == .json) then
    .rejected 1
  else if badDepth o.depth then
    .rejected 1
  else
    .ran config

/-- A concrete parsed command line with a pattern, default depth, and
the unrecognized output format `xml`. -/
def c3Options : RawOptions :=
  { files := some "*.tmp", folders := none, types := none, exclude := [],
    depth := none, dryRun := false, interactive := false, preview := false,
    force := false, format := "xml" }

example :
    collectItemsToDelete
      { dryRun := false, interactive := false, force := false, preview := false,
        outputFormat := .plain, maxDepth := none, filesPattern := some "*.tmp",
        foldersPattern := none, typesPattern := none, excludePatterns := ["important"] }
      (.fileCons "b.tmp"
        (.fileCons "a.tmp"
          (.dirCons "keep" (.fileCons "important.tmp" .nil) .nil))) =
      ["a.tmp", "b.tmp"] := by decide

example :
    findDirectoriesPaths "cache" (some 1)
      (.dirCons "sub" (.dirCons "cache" .nil .nil) (.dirCons "cache" .nil .nil)) =
      [["sub", "cache"], ["cache"]] := by decide

example :
    findItemsPaths "a" (some 1)
      (.dirCons "a" (.fileCons "a" .nil) .nil) = [["a"], ["a", "a"]] := by decide

example :
    findFilesPaths "*.tmp" (some 1)
      (.fileCons "x.tmp" (.dirCons "d" (.fileCons "y.tmp" .nil) .nil)) = [["x.tmp"]] := by decide

example :
    dirAtPath (.dirCons "sub" (.dirCons "cache" .nil .nil) .nil) ["sub", "cache"] = true := by
  decide

example :
    fileAtPath (.dirCons "d" (.fileCons "y.tmp" .nil) .nil) ["d", "y.tmp"] = true := by decide

example : shouldExclude "keep/important.tmp" ["important"] = true := by decide
example : shouldExclude "keep/data.tmp" ["important"] = false := by decide
example : basename "keep/important.tmp" = "important.tmp" := by decide
example : shouldExclude "a/important/b.tmp" ["important"] = true := by decide

example : matchesPattern "cache" "cache" = some true := by decide
example : matchesPattern "cache2" "cache" = some false := by decide
example : matchesPattern "x" "." = some true := by decide
example : matchesPattern "x" "[" = none := by decide
example : matchesPattern "aab" "a+b" = some true := by decide
example : matchesPattern "foo.tmp" "*.tmp" = some true := by decide
example : specGlobMatches ".".toList "x".toList = false := by decide
example : specGlobMatches "*.tmp".toList "foo.tmp".toList = true := by decide

/-! ## Lemmas about the string order and the sort -/

theorem charToNat_inj {a b : Char} (h : a.toNat = b.toNat) : a = b := by
  rcases a with ⟨⟨a, ha⟩, hva⟩
  rcases b with ⟨⟨b, hb⟩, hvb⟩
  simp only [Char.toNat, UInt32.toNat] at h
  simp_all

theorem charListLe_total : ∀ as bs, charListLe as bs = true ∨ charListLe bs as = true := by
  intro as
  induction as with
  | nil => intro bs; left; rfl
  | cons a as ih =>
    intro bs
    cases bs with
    | nil => right; rfl
    | cons b bs =>
      simp only [charListLe]
      by_cases hab : a = b
      · subst hab
        simpa using ih bs
      · have hne : a.toNat ≠ b.toNat := fun h => hab (charToNat_inj h)
        rcases Nat.lt_or_ge a.toNat b.toNat with h | h
        · left
          simp [hab, h]
        · right
          have hba : b ≠ a := fun h => hab h.symm
          have : b.toNat < a.toNat := lt_of_le_of_ne h (fun h2 => hne h2.symm)
          simp [hba, this]

theorem charListLe_trans :
    ∀ as bs cs, charListLe as bs = true → charListLe bs cs = true →
      charListLe as cs = true := by
  intro as
  induction as with
  | nil => intro bs cs _ _; rfl
  | cons a as ih =>
    intro bs cs h1 h2
    cases bs with
    | nil => simp [charListLe] at h1
    | cons b bs =>
      cases cs with
      | nil => simp [charListLe] at h2
      | cons c cs =>
        simp only [charListLe] at h1 h2 ⊢
        by_cases hab : a = b
        · subst hab
          by_cases hbc : a = c
          · subst hbc
            simp only [beq_self_eq_true, if_pos] at h1 h2 ⊢
            exact ih bs cs h1 h2
          · simp only [beq_iff_eq, hbc, if_neg, if_pos, not_false_iff] at h2 ⊢
            simpa using h2
        · by_cases hbc : b = c
          · subst hbc
            simp only [beq_iff_eq, hab, if_neg, not_false_iff] at h1 ⊢
            exact h1
          · simp only [beq_iff_eq, hab, hbc, if_neg, not_false_iff, decide_eq_true_eq] at h1 h2
            by_cases hac : a = c
            · subst hac
              exact absurd (Nat.lt_trans h1 h2) (by omega)
            · simp only [beq_iff_eq, hac, if_neg, not_false_iff, decide_eq_true_eq]
              exact Nat.lt_trans h1 h2

theorem strLe_total (a b : String) : strLe a b = true ∨ strLe b a = true :=
  charListLe_total a.toList b.toList

theorem strLe_trans {a b c : String} (h1 : strLe a b = true) (h2 : strLe b c = true) :
    strLe a c = true :=
  charListLe_trans a.toList b.toList c.toList h1 h2

theorem orderedInsert_perm (a : String) :
    ∀ l : List String, List.Perm (orderedInsert a l) (a :: l) := by
  intro l
  induction l with
  | nil => simp [orderedInsert]
  | cons b l ih =>
    simp only [orderedInsert]
    by_cases h : strLe a b = true
    · simp [h]
    · simp only [h, if_neg, Bool.not_eq_true]
      exact ((ih.cons b).trans (List.Perm.swap a b l)).symm.symm

theorem sortStrings_perm : ∀ l : List String, List.Perm (sortStrings l) l := by
  intro l
  induction l with
  | nil => simp [sortStrings]
  | cons a l ih =>
    exact (orderedInsert_perm a (sortStrings l)).trans (ih.cons a)

theorem mem_sortStrings {x : String} {l : List String} : x ∈ sortStrings l ↔ x ∈ l :=
  (sortStrings_perm l).mem_iff

theorem sorted_orderedInsert (a : String) (l : List String)
    (hl : List.Pairwise (fun x y => strLe x y = true) l) :
    List.Pairwise (fun x y => strLe x y = true) (orderedInsert a l) := by
  induction l with
  | nil => simp [orderedInsert]
  | cons b l ih =>
    simp only [orderedInsert]
    rcases List.pairwise_cons.mp hl with ⟨hb, hl'⟩
    by_cases h : strLe a b = true
    · rw [if_pos h]
      refine List.pairwise_cons.mpr ⟨?_, hl⟩
      intro y hy
      rcases List.mem_cons.mp hy with rfl | hy
      · exact h
      · exact strLe_trans h (hb y hy)
    · rw [if_neg h]
      refine List.pairwise_cons.mpr ⟨?_, ih hl'⟩
      intro y hy
      have hy' := (orderedInsert_perm a l).mem_iff.mp hy
      rcases List.mem_cons.mp hy' with heq | hy'
      · rw [heq]
        rcases strLe_total a b with h' | h'
        · exact absurd h' h
        · exact h'
      · exact hb y hy'

theorem sorted_sortStrings :
    ∀ l : List String, List.Pairwise (fun x y => strLe x y = true) (sortStrings l) := by
  intro l
  induction l with
  | nil => simp [sortStrings]
  | cons a l ih => exact sorted_orderedInsert a (sortStrings l) ih

/-! ## Lemmas about deduplication -/

theorem mem_dedupFirstAux {y : String} :
    ∀ (l seen : List String), y ∈ dedupFirstAux seen l ↔ y ∈ l ∧ ¬ y ∈ seen := by
  intro l
  induction l with
  | nil => intro seen; simp [dedupFirstAux]
  | cons x xs ih =>
    intro seen
    simp only [dedupFirstAux]
    by_cases h : seen.contains x = true
    · have hx : x ∈ seen := by simpa using h
      rw [if_pos h, ih seen]
      simp only [List.mem_cons]
      constructor
      · rintro ⟨hy, hs⟩
        exact ⟨Or.inr hy, hs⟩
      · rintro ⟨hy | hy, hs⟩
        · exact absurd (hy ▸ hx) hs
        · exact ⟨hy, hs⟩
    · have hx : ¬ x ∈ seen := by simpa using h
      rw [if_neg h]
      simp only [List.mem_cons, ih (x :: seen)]
      constructor
      · rintro (rfl | ⟨hy, hs⟩)
        · exact ⟨Or.inl rfl, hx⟩
        · exact ⟨Or.inr hy, fun hc => hs (Or.inr hc)⟩
      · rintro ⟨rfl | hy, hs⟩
        · exact Or.inl rfl
        · by_cases hxy : y = x
          · exact Or.inl hxy
          · exact Or.inr ⟨hy, fun hc => hc.elim hxy hs⟩

theorem nodup_dedupFirstAux :
    ∀ (l seen : List String), (dedupFirstAux seen l).Nodup := by
  intro l
  induction l with
  | nil => intro seen; simp [dedupFirstAux]
  | cons x xs ih =>
    intro seen
    simp only [dedupFirstAux]
    by_cases h : seen.contains x = true
    · rw [if_pos h]
      exact ih seen
    · rw [if_neg h]
      refine List.nodup_cons.mpr ⟨?_, ih (x :: seen)⟩
      intro hc
      exact ((mem_dedupFirstAux xs (x :: seen)).mp hc).2 (List.mem_cons_self x seen)

theorem nodup_dedupFirst (l : List String) : (dedupFirst l).Nodup :=
  nodup_dedupFirstAux l []

/-! ## Lemmas about substring containment -/

theorem isPreOf_iff : ∀ (p s : List Char), isPreOf p s = true ↔ ∃ r, s = p ++ r := by
  intro p
  induction p with
  | nil => intro s; simp [isPreOf]
  | cons a as ih =>
    intro s
    cases s with
    | nil =>
      simp [isPreOf]
    | cons b bs =>
      simp only [isPreOf, Bool.and_eq_true, beq_iff_eq, ih bs, List.cons_append]
      constructor
      · rintro ⟨rfl, r, rfl⟩
        exact ⟨r, rfl⟩
      · rintro ⟨r, h⟩
        obtain ⟨h1, h2⟩ := List.cons.injEq .. ▸ h
        exact ⟨h1.symm, r, h2⟩

theorem containsAt_iff : ∀ (s p : List Char), containsAt p s = true ↔ ∃ l r, s = l ++ p ++ r := by
  intro s
  induction s with
  | nil =>
    intro p
    simp only [containsAt, isPreOf_iff]
    constructor
    · rintro ⟨r, h⟩
      exact ⟨[], r, by simpa using h⟩
    · rintro ⟨l, r, h⟩
      rcases List.append_eq_nil.mp h.symm with ⟨h12, h3⟩
      rcases List.append_eq_nil.mp h12 with ⟨h1, h2⟩
      exact ⟨r, by simp [h2, h3]⟩
  | cons c cs ih =>
    intro p
    simp only [containsAt, Bool.or_eq_true, isPreOf_iff, ih p]
    constructor
    · rintro (⟨r, h⟩ | ⟨l, r, h⟩)
      · exact ⟨[], r, by simpa using h⟩
      · exact ⟨c :: l, r, by simp [h]⟩
    · rintro ⟨l, r, h⟩
      cases l with
      | nil => exact Or.inl ⟨r, by simpa using h⟩
      | cons x l =>
        obtain ⟨rfl, h2⟩ := List.cons.injEq .. ▸ h
        exact Or.inr ⟨l, r, h2⟩

theorem containsSubstr_iff (s pat : String) :
    containsSubstr s pat = true ↔ ∃ l r : String, s = l ++ pat ++ r := by
  rw [containsSubstr, containsAt_iff]
  constructor
  · rintro ⟨l, r, h⟩
    refine ⟨⟨l⟩, ⟨r⟩, ?_⟩
    apply String.ext
    simpa [String.toList] using h
  · rintro ⟨l, r, h⟩
    exact ⟨l.toList, r.toList, by simp [h, String.toList]⟩

/-! ## Claims C6, C7, C8: exclusion, worklist shape, determinism -/

/-- C6: a path is excluded exactly when some exclusion pattern occurs
in it as a literal substring or equals its basename (plain string
comparison), and every excluded path is absent from the selection's
output. -/
theorem exclusion_contract :
    (∀ (path : String) (excludePatterns : List String),
        shouldExclude path excludePatterns = true ↔
          ∃ pattern ∈ excludePatterns,
            (∃ l r : String, path = l ++ pattern ++ r) ∨ basename path = pattern) ∧
    (∀ (cfg : Config) (root : FSForest) (x : String),
        x ∈ collectItemsToDelete cfg root →
          shouldExclude x cfg.excludePatterns = false) := by
  constructor
  · intro path pats
    simp only [shouldExclude, List.any_eq_true, Bool.or_eq_true, beq_iff_eq,
      containsSubstr_iff]
  · intro cfg root x hx
    simp only [collectItemsToDelete] at hx
    have hx' := mem_sortStrings.mp hx
    have := (List.mem_filter.mp hx').2
    simpa using this

/-- C6 witness: concrete instances of both parts (the spec's §8
scenario): `keep/important.tmp` is excluded by the substring check, and
the selected path `a.tmp` is not excluded. -/
theorem exclusion_contract_witness :
    shouldExclude "keep/important.tmp" ["important"] = true ∧
    shouldExclude "a.tmp" ["important"] = false := by
  constructor
  · exact (exclusion_contract.1 "keep/important.tmp" ["important"]).mpr
      ⟨"important", by decide, Or.inl ⟨"keep/", ".tmp", by decide⟩⟩
  · exact exclusion_contract.2
      { dryRun := false, interactive := false, force := false, preview := false,
        outputFormat := .plain, maxDepth := none, filesPattern := some "*.tmp",
        foldersPattern := none, typesPattern := none, excludePatterns := ["important"] }
      (.fileCons "b.tmp"
        (.fileCons "a.tmp"
          (.dirCons "keep" (.fileCons "important.tmp" .nil) .nil)))
      "a.tmp" (by decide)

/-- C7: the worklist contains no path twice and is sorted ascending by
the path string. -/
theorem worklist_nodup_sorted :
    ∀ (cfg : Config) (root : FSForest),
      (collectItemsToDelete cfg root).Nodup ∧
      List.Pairwise (fun a b => strLe a b = true) (collectItemsToDelete cfg root) := by
  intro cfg root
  simp only [collectItemsToDelete]
  constructor
  · exact (sortStrings_perm _).symm.nodup ((nodup_dedupFirst _).filter _)
  · exact sorted_sortStrings _

/-- C8: selection is deterministic and idempotent over an unchanged
filesystem: a second run of `collectItemsToDelete` (which first resets
the engine's worklist) yields the same state, and any two runs yield
identical ordered worklists. -/
theorem select_idempotent :
    ∀ (cfg : Config) (root : FSForest) (st1 st2 : SelState),
      runCollect cfg root (runCollect cfg root st1) = runCollect cfg root st1 ∧
      (runCollect cfg root st1).itemsToDelete = (runCollect cfg root st2).itemsToDelete := by
  intro cfg root st1 st2
  exact ⟨rfl, rfl⟩

/-! ## Lemmas about the pattern matcher -/

/-- Characters of a glob pattern whose translation the embedded regex
parser accepts in any position: the two wildcards (whose translation
never reaches the parser unchanged), and everything except the
unsupported construct openers and `+` (which the translation leaves in
place as a quantifier and which fails to parse at the start of a
pattern). -/
def parseSafeChar (c : Char) : Bool :=
  c == '*' || c == '?' || (!regexUnsupported c && !(c == '+'))

theorem parseRegexAux_globTranslate :
    ∀ (p : List Char) (acc : List RTok),
      (∀ c ∈ p, parseSafeChar c = true) →
      parseRegexAux (globTranslate p) acc = some (acc.reverse ++ globTokens p) := by
  intro p
  induction p with
  | nil =>
    intro acc h
    simp [globTranslate, parseRegexAux, globTokens]
  | cons c cs ih =>
    intro acc h
    have hcs : ∀ d ∈ cs, parseSafeChar d = true :=
      fun d hd => h d (List.mem_cons.mpr (Or.inr hd))
    by_cases hstar : c = '*'
    · subst hstar
      show parseRegexAux ('.' :: '*' :: globTranslate cs) acc = _
      rw [show parseRegexAux ('.' :: '*' :: globTranslate cs) acc =
          parseRegexAux ('*' :: globTranslate cs) (.atom .dot :: acc) from by
        simp [parseRegexAux, regexUnsupported]]
      rw [show parseRegexAux ('*' :: globTranslate cs) (.atom .dot :: acc) =
          parseRegexAux (globTranslate cs) (.star .dot :: acc) from by
        simp [parseRegexAux]]
      rw [ih _ hcs]
      simp [globTokens]
    · by_cases hdotq : c = '?' ∨ c = '.'
      · have htr : globTranslate (c :: cs) = '.' :: globTranslate cs := by
          rcases hdotq with rfl | rfl <;> simp [globTranslate]
        rw [htr]
        rw [show parseRegexAux ('.' :: globTranslate cs) acc =
            parseRegexAux (globTranslate cs) (.atom .dot :: acc) from by
          simp [parseRegexAux, regexUnsupported]]
        rw [ih _ hcs]
        have htk : globTokens (c :: cs) = .atom .dot :: globTokens cs := by
          rcases hdotq with rfl | rfl <;> simp [globTokens]
        rw [htk]
        simp
      · push_neg at hdotq
        obtain ⟨hq, hd⟩ := hdotq
        have hc' : (!regexUnsupported c && !(c == '+')) = true := by
          have hc := h c (List.mem_cons_self c cs)
          simpa [parseSafeChar, hstar, hq] using hc
        have hcu : regexUnsupported c = false := by
          rcases (Bool.and_eq_true ..).mp hc' with ⟨h1, _⟩
          simpa using h1
        have hcp : (c == '+') = false := by
          rcases (Bool.and_eq_true ..).mp hc' with ⟨_, h2⟩
          simpa using h2
        have htr : globTranslate (c :: cs) = c :: globTranslate cs := by
          simp [globTranslate, hstar, hq]
        rw [htr]
        rw [show parseRegexAux (c :: globTranslate cs) acc =
            parseRegexAux (globTranslate cs) (.atom (.lit c) :: acc) from by
          have h1 : (c == '*' || c == '+') = false := by
            simp [hstar, hcp]
          simp [parseRegexAux, h1, hcu, hd]]
        rw [ih _ hcs]
        have htk : globTokens (c :: cs) = .atom (.lit c) :: globTokens cs := by
          simp [globTokens, hstar, hq, hd]
        rw [htk]
        simp

theorem starChoices_dot (cs : List Char) : starChoices .dot cs = anySuffixes cs := by
  induction cs with
  | nil => rfl
  | cons c cs ih => simp [starChoices, anySuffixes, atomMatches, ih]

theorem regexAccept_globTokens :
    ∀ (p : List Char), (∀ c ∈ p, (c == '.') = false) →
      ∀ (s : List Char), regexAccept (globTokens p) s = specGlobMatches p s := by
  intro p
  induction p with
  | nil =>
    intro _ s
    simp [globTokens, regexAccept, specGlobMatches]
  | cons c cs ih =>
    intro h s
    have hc : (c == '.') = false := h c (List.mem_cons_self c cs)
    have hcs : ∀ d ∈ cs, (d == '.') = false :=
      fun d hd => h d (List.mem_cons.mpr (Or.inr hd))
    have ihf : regexAccept (globTokens cs) = specGlobMatches cs := funext (ih hcs)
    by_cases hstar : c = '*'
    · subst hstar
      show regexAccept (RTok.star .dot :: globTokens cs) s = _
      rw [show regexAccept (RTok.star .dot :: globTokens cs) s =
          (starChoices .dot s).any (regexAccept (globTokens cs)) from rfl]
      rw [starChoices_dot, ihf]
      simp [specGlobMatches]
    · by_cases hq : c = '?'
      · subst hq
        show regexAccept (RTok.atom .dot :: globTokens cs) s = _
        cases s with
        | nil => simp [regexAccept, specGlobMatches]
        | cons n ns =>
          simp [regexAccept, specGlobMatches, atomMatches, ihf]
      · have htk : globTokens (c :: cs) = .atom (.lit c) :: globTokens cs := by
          simp [globTokens, hstar, hq, hc]
        rw [htk]
        cases s with
        | nil =>
          simp [regexAccept, specGlobMatches, hstar]
        | cons n ns =>
          have : (c == '?') = false := by simpa using hq
          simp [regexAccept, specGlobMatches, atomMatches, ihf, hstar, this]

/-! ## Claims C4, C5: the pattern matcher against its contract -/

/-- C4 counterexample: the claim "every other character of the pattern
matches only itself" fails, because the glob-to-regex translation does
not escape regex metacharacters: the pattern `"."` becomes the regex
`^.$` and matches the name `"x"`. -/
theorem matchesPattern_not_spec :
    ¬ (∀ (name pattern : String),
        matchesPattern name pattern =
          some (specGlobMatches pattern.toList name.toList)) := by
  intro h
  have hx := h "x" "."
  rw [show matchesPattern "x" "." = some true from by decide] at hx
  rw [show specGlobMatches ".".toList "x".toList = false from by decide] at hx
  exact Bool.noConfusion (Option.some.injEq .. ▸ hx)

/-- C4 (amended): for every name, and every pattern none of whose
characters is a regex metacharacter other than the wildcards (no `.`,
`+`, `[`, `(`, `)`, `\`, `|`, `^`, `$`, `{`), `matchesPattern` is the
anchored full-string glob match: `*` matches any run of characters,
`?` exactly one character, every other character only itself,
case-sensitively; in particular a wildcard-free such pattern matches
only the exactly-equal name. -/
theorem matchesPattern_spec :
    ∀ (name pattern : String),
      (∀ c ∈ pattern.toList, parseSafeChar c = true ∧ (c == '.') = false) →
      matchesPattern name pattern = some (specGlobMatches pattern.toList name.toList) := by
  intro name pattern h
  rw [matchesPattern, parseRegex,
    parseRegexAux_globTranslate pattern.toList [] (fun c hc => (h c hc).1)]
  have hsem := regexAccept_globTokens pattern.toList (fun c hc => (h c hc).2) name.toList
  simp only [List.reverse_nil, List.nil_append, Option.map_some', hsem]

/-- C4 witness: the amended theorem applied to the spec's anchoring
example: pattern `cache` matches exactly the name `cache` and not
`cache2`. -/
theorem matchesPattern_spec_witness :
    matchesPattern "cache" "cache" = some true ∧
    matchesPattern "cache2" "cache" = some false := by
  constructor
  · exact (matchesPattern_spec "cache" "cache" (by decide)).trans (by decide)
  · exact (matchesPattern_spec "cache2" "cache" (by decide)).trans (by decide)

/-- C5 counterexample: `matchesPattern` is not total: the pattern `"["`
translates to the regex `^[$`, whose construction throws a
`SyntaxError` (unterminated character class), modelled here as `none`. -/
theorem matchesPattern_not_total :
    ¬ (∀ (name pattern : String), (matchesPattern name pattern).isSome = true) := by
  intro h
  have hx := h "x" "["
  rw [show matchesPattern "x" "[" = none from by decide] at hx
  exact Bool.noConfusion hx

/-- C5 (amended): `matchesPattern` is pure, and it is total — returning
a boolean rather than propagating a `RegExp` `SyntaxError` — for every
name and every pattern containing no regex construct opener (`[`, `(`,
`)`, `\`, `|`, `^`, `$`, `{`) and no `+`; non-wildcard characters of
such patterns that are not regex metacharacters are matched literally. -/
theorem matchesPattern_total_of_safe :
    ∀ (name pattern : String),
      (∀ c ∈ pattern.toList, parseSafeChar c = true) →
      (matchesPattern name pattern).isSome = true := by
  intro name pattern h
  rw [matchesPattern, parseRegex, parseRegexAux_globTranslate pattern.toList [] h]
  rfl

/-- C5 witness: the amended totality theorem applied to a concrete
pattern using both wildcards. -/
theorem matchesPattern_total_witness :
    (matchesPattern "notes.txt" "*.t?t").isSome = true :=
  matchesPattern_total_of_safe "notes.txt" "*.t?t" (by decide)

/-! ## Lemmas about the deletion engine -/

theorem engineDeleteItem_dry (cfg : Config) (ctx : DelCtx) (st : DelState) (item : String)
    (hdry : cfg.dryRun = true) :
    engineDeleteItem cfg ctx st item =
      { st with log := st.log ++ [(s!"Would delete: {item}", .INFO)],
                deletedItems := st.deletedItems ++ [item] } := by
  unfold engineDeleteItem
  rw [if_pos hdry]

theorem foldl_dryRun (cfg : Config) (ctx : DelCtx) (hdry : cfg.dryRun = true) :
    ∀ (items : List String) (st : DelState),
      (items.foldl (engineDeleteItem cfg ctx) st).deletedItems = st.deletedItems ++ items ∧
      (items.foldl (engineDeleteItem cfg ctx) st).failedDeletions = st.failedDeletions ∧
      (items.foldl (engineDeleteItem cfg ctx) st).rmCalls = st.rmCalls := by
  intro items
  induction items with
  | nil => intro st; simp
  | cons i rest ih =>
    intro st
    simp only [List.foldl_cons, engineDeleteItem_dry cfg ctx st i hdry]
    rcases ih { st with log := st.log ++ [(s!"Would delete: {i}", .INFO)],
                        deletedItems := st.deletedItems ++ [i] } with ⟨h1, h2, h3⟩
    refine ⟨?_, ?_, ?_⟩
    · rw [h1]
      simp
    · rw [h2]
    · rw [h3]

theorem engineDeleteItem_failed (cfg : Config) (ctx : DelCtx) (st : DelState) (i : String) :
    (engineDeleteItem cfg ctx st i).failedDeletions = st.failedDeletions ∨
    ((engineDeleteItem cfg ctx st i).failedDeletions = st.failedDeletions ++ [i] ∧
      ctx.rmOk i = false ∧ (ctx.stat i = .file ∨ ctx.stat i = .dir)) := by
  unfold engineDeleteItem
  split_ifs with h1 h2 h3 h4 h5 h6
  · exact Or.inl rfl
  · exact Or.inl rfl
  · exact Or.inl rfl
  · refine Or.inr ⟨rfl, ?_, ?_⟩
    · have hd : ctx.stat i = .dir := by
        have := h3
        simp only [isDirectory, beq_iff_eq] at this
        exact this
      simp only [deleteItem, hd, Bool.not_eq_true] at h4
      exact h4
    · exact Or.inr (by simpa [isDirectory] using h3)
  · exact Or.inl rfl
  · refine Or.inr ⟨rfl, ?_, ?_⟩
    · have hf : ctx.stat i = .file := by simpa [isFile] using h5
      simp only [deleteItem, hf, Bool.not_eq_true] at h6
      exact h6
    · exact Or.inl (by simpa [isFile] using h5)
  · exact Or.inl rfl

theorem foldl_failed_mem (cfg : Config) (ctx : DelCtx) :
    ∀ (items : List String) (st : DelState) (x : String),
      x ∈ (items.foldl (engineDeleteItem cfg ctx) st).failedDeletions →
      x ∈ st.failedDeletions ∨
        (x ∈ items ∧ ctx.rmOk x = false ∧ (ctx.stat x = .file ∨ ctx.stat x = .dir)) := by
  intro items
  induction items with
  | nil => intro st x hx; exact Or.inl hx
  | cons i rest ih =>
    intro st x hx
    simp only [List.foldl_cons] at hx
    rcases ih _ x hx with hx' | ⟨hmem, hrm, hstat⟩
    · rcases engineDeleteItem_failed cfg ctx st i with heq | ⟨heq, hrm, hstat⟩
      · exact Or.inl (heq ▸ hx')
      · rw [heq] at hx'
        rcases List.mem_append.mp hx' with h | h
        · exact Or.inl h
        · have : x = i := by simpa using h
          subst this
          exact Or.inr ⟨List.mem_cons_self x rest, hrm, hstat⟩
    · exact Or.inr ⟨List.mem_cons.mpr (Or.inr hmem), hrm, hstat⟩

theorem engineDeleteItem_vanished (cfg : Config) (ctx : DelCtx) (st : DelState) (i : String)
    (hdry : cfg.dryRun = false)
    (hstat : ctx.stat i = .other ∨ ctx.stat i = .absent)
    (hconf : cfg.interactive = true → confirmDeletion ctx i cfg.force = true) :
    engineDeleteItem cfg ctx st i =
      { st with log := st.log ++ [(notFoundMsg i, .WARNING)] } := by
  unfold engineDeleteItem
  rw [if_neg (by simp [hdry]), if_neg, if_neg, if_neg]
  · rcases hstat with h | h <;> simp [isFile, h]
  · rcases hstat with h | h <;> simp [isDirectory, h]
  · intro hc
    rcases Bool.and_eq_true .. |>.mp hc with ⟨hi, hnc⟩
    rw [hconf hi] at hnc
    simp at hnc

theorem engineDeleteItem_not_mem (cfg : Config) (ctx : DelCtx) (st : DelState)
    (j x : String)
    (hdry : cfg.dryRun = false)
    (hstat : ctx.stat x = .other ∨ ctx.stat x = .absent)
    (hd : x ∉ st.deletedItems) (hf : x ∉ st.failedDeletions) (hr : x ∉ st.rmCalls) :
    x ∉ (engineDeleteItem cfg ctx st j).deletedItems ∧
    x ∉ (engineDeleteItem cfg ctx st j).failedDeletions ∧
    x ∉ (engineDeleteItem cfg ctx st j).rmCalls := by
  unfold engineDeleteItem
  split_ifs with h1 h2 h3 h4 h5 h6
  · exact absurd h1 (by simp [hdry])
  · exact ⟨hd, hf, hr⟩
  · have hjd : ctx.stat j = .dir := by simpa [isDirectory] using h3
    have hne : x ≠ j := by
      intro hxj
      subst hxj
      rcases hstat with h | h <;> simp [h] at hjd
    refine ⟨?_, hf, ?_⟩
    · intro hx
      rcases List.mem_append.mp hx with h | h
      · exact hd h
      · exact hne (by simpa using h)
    · intro hx
      rcases List.mem_append.mp hx with h | h
      · exact hr h
      · exact hne (by simpa using h)
  · have hjd : ctx.stat j = .dir := by simpa [isDirectory] using h3
    have hne : x ≠ j := by
      intro hxj
      subst hxj
      rcases hstat with h | h <;> simp [h] at hjd
    refine ⟨hd, ?_, ?_⟩
    · intro hx
      rcases List.mem_append.mp hx with h | h
      · exact hf h
      · exact hne (by simpa using h)
    · intro hx
      rcases List.mem_append.mp hx with h | h
      · exact hr h
      · exact hne (by simpa using h)
  · have hjf : ctx.stat j = .file := by simpa [isFile] using h5
    have hne : x ≠ j := by
      intro hxj
      subst hxj
      rcases hstat with h | h <;> simp [h] at hjf
    refine ⟨?_, hf, ?_⟩
    · intro hx
      rcases List.mem_append.mp hx with h | h
      · exact hd h
      · exact hne (by simpa using h)
    · intro hx
      rcases List.mem_append.mp hx with h | h
      · exact hr h
      · exact hne (by simpa using h)
  · have hjf : ctx.stat j = .file := by simpa [isFile] using h5
    have hne : x ≠ j := by
      intro hxj
      subst hxj
      rcases hstat with h | h <;> simp [h] at hjf
    refine ⟨hd, ?_, ?_⟩
    · intro hx
      rcases List.mem_append.mp hx with h | h
      · exact hf h
      · exact hne (by simpa using h)
    · intro hx
      rcases List.mem_append.mp hx with h | h
      · exact hr h
      · exact hne (by simpa using h)
  · exact ⟨hd, hf, hr⟩

theorem foldl_vanished_not_mem (cfg : Config) (ctx : DelCtx)
    (hdry : cfg.dryRun = false) (x : String)
    (hstat : ctx.stat x = .other ∨ ctx.stat x = .absent) :
    ∀ (items : List String) (st : DelState),
      x ∉ st.deletedItems → x ∉ st.failedDeletions → x ∉ st.rmCalls →
      x ∉ (items.foldl (engineDeleteItem cfg ctx) st).deletedItems ∧
      x ∉ (items.foldl (engineDeleteItem cfg ctx) st).failedDeletions ∧
      x ∉ (items.foldl (engineDeleteItem cfg ctx) st).rmCalls := by
  intro items
  induction items with
  | nil => intro st hd hf hr; exact ⟨hd, hf, hr⟩
  | cons j rest ih =>
    intro st hd hf hr
    simp only [List.foldl_cons]
    rcases engineDeleteItem_not_mem cfg ctx st j x hdry hstat hd hf hr with ⟨hd', hf', hr'⟩
    exact ih _ hd' hf' hr'

theorem engineDeleteItem_log_mono (cfg : Config) (ctx : DelCtx) (st : DelState) (i : String) :
    ∃ t, (engineDeleteItem cfg ctx st i).log = st.log ++ t := by
  unfold engineDeleteItem
  split_ifs <;> exact ⟨_, rfl⟩

theorem foldl_log_mono (cfg : Config) (ctx : DelCtx) :
    ∀ (items : List String) (st : DelState),
      ∃ t, (items.foldl (engineDeleteItem cfg ctx) st).log = st.log ++ t := by
  intro items
  induction items with
  | nil => intro st; exact ⟨[], by simp⟩
  | cons j rest ih =>
    intro st
    simp only [List.foldl_cons]
    obtain ⟨t1, h1⟩ := engineDeleteItem_log_mono cfg ctx st j
    obtain ⟨t2, h2⟩ := ih (engineDeleteItem cfg ctx st j)
    exact ⟨t1 ++ t2, by rw [h2, h1, List.append_assoc]⟩

theorem foldl_vanished_warn (cfg : Config) (ctx : DelCtx)
    (hdry : cfg.dryRun = false) (x : String)
    (hstat : ctx.stat x = .other ∨ ctx.stat x = .absent)
    (hconf : cfg.interactive = true → confirmDeletion ctx x cfg.force = true) :
    ∀ (items : List String) (st : DelState), x ∈ items →
      (notFoundMsg x, LogLevel.WARNING) ∈ (items.foldl (engineDeleteItem cfg ctx) st).log := by
  intro items
  induction items with
  | nil => intro st hx; exact absurd hx (List.not_mem_nil x)
  | cons j rest ih =>
    intro st hx
    simp only [List.foldl_cons]
    rcases List.mem_cons.mp hx with heq | hmem
    · subst heq
      rw [engineDeleteItem_vanished cfg ctx st x hdry hstat hconf]
      obtain ⟨t, ht⟩ := foldl_log_mono cfg ctx rest _
      rw [ht]
      exact List.mem_append.mpr (Or.inl (List.mem_append.mpr (Or.inr (List.mem_singleton.mpr rfl))))
    · exact ih _ hmem

theorem engineDeleteItem_declined (cfg : Config) (ctx : DelCtx) (st : DelState) (i : String)
    (hdry : cfg.dryRun = false) (hint : cfg.interactive = true)
    (hconf : confirmDeletion ctx i cfg.force = false) :
    engineDeleteItem cfg ctx st i =
      { st with log := st.log ++ [(s!"Skipped: {i}", .INFO)] } := by
  unfold engineDeleteItem
  rw [if_neg (by simp [hdry]), if_pos (by simp [hint, hconf])]

theorem foldl_all_declined (cfg : Config) (ctx : DelCtx)
    (hdry : cfg.dryRun = false) (hint : cfg.interactive = true) (hforce : cfg.force = false)
    (hans : ∀ i, ctx.ans i = false) :
    ∀ (items : List String) (st : DelState),
      (items.foldl (engineDeleteItem cfg ctx) st).deletedItems = st.deletedItems ∧
      (items.foldl (engineDeleteItem cfg ctx) st).failedDeletions = st.failedDeletions ∧
      (items.foldl (engineDeleteItem cfg ctx) st).rmCalls = st.rmCalls := by
  intro items
  induction items with
  | nil => intro st; exact ⟨rfl, rfl, rfl⟩
  | cons j rest ih =>
    intro st
    simp only [List.foldl_cons]
    rw [engineDeleteItem_declined cfg ctx st j hdry hint
      (by simp [confirmDeletion, hforce, hans j])]
    exact ih _

theorem getExitCode_eq_one_iff (st : DelState) :
    getExitCode st = 1 ↔ st.failedDeletions ≠ [] := by
  unfold getExitCode
  cases h : st.failedDeletions <;> simp [h]

theorem previewState_deletedItems (cfg : Config) (items : List String) :
    (previewState cfg items).deletedItems = [] := by
  unfold previewState
  split <;> rfl

theorem previewState_failedDeletions (cfg : Config) (items : List String) :
    (previewState cfg items).failedDeletions = [] := by
  unfold previewState
  split <;> rfl

theorem previewState_rmCalls (cfg : Config) (items : List String) :
    (previewState cfg items).rmCalls = [] := by
  unfold previewState
  split <;> rfl

theorem processDeletions_empty (cfg : Config) (ctx : DelCtx) (items : List String)
    (h : items.isEmpty = true) :
    processDeletions cfg ctx items =
      { initDelState with log := [("No items to delete.", .INFO)] } := by
  unfold processDeletions
  rw [if_pos h]

theorem processDeletions_cancelled (cfg : Config) (ctx : DelCtx) (items : List String)
    (hempty : ¬ items.isEmpty = true)
    (hgate : (cfg.preview && !cfg.dryRun && !cfg.force && !confirmProceed ctx) = true) :
    processDeletions cfg ctx items =
      { previewState cfg items with
          log := (previewState cfg items).log ++ [("Deletion cancelled by user.", .INFO)] } := by
  unfold processDeletions
  rw [if_neg hempty, if_pos hgate]

theorem processDeletions_run (cfg : Config) (ctx : DelCtx) (items : List String)
    (hempty : ¬ items.isEmpty = true)
    (hgate : ¬ ((cfg.preview && !cfg.dryRun && !cfg.force && !confirmProceed ctx) = true)) :
    processDeletions cfg ctx items =
      items.foldl (engineDeleteItem cfg ctx) (previewState cfg items) := by
  unfold processDeletions
  rw [if_neg hempty, if_neg hgate]

/-! ## Claims C2, C9, C10: dry run, preview gate, vanished entries -/

/-- C2: with dryRun set, the executor performs no removal attempt for
any worklist item regardless of the interactive, force, and preview
flags (`rmCalls = []`), nothing fails, every item is recorded as
would-delete, and the summary satisfies deleted == totalItems. -/
theorem dryRun_no_mutation :
    ∀ (cfg : Config) (ctx : DelCtx) (items : List String),
      cfg.dryRun = true →
      (processDeletions cfg ctx items).rmCalls = [] ∧
      (processDeletions cfg ctx items).failedDeletions = [] ∧
      (processDeletions cfg ctx items).deletedItems = items ∧
      (getSummary cfg items (processDeletions cfg ctx items)).deleted =
        (getSummary cfg items (processDeletions cfg ctx items)).totalItems := by
  intro cfg ctx items hdry
  by_cases hempty : items.isEmpty
  · have : items = [] := by simpa using hempty
    subst this
    simp [processDeletions, initDelState, getSummary]
  · have hgate : ¬ ((cfg.preview && !cfg.dryRun && !cfg.force && !confirmProceed ctx) = true) := by
      simp [hdry]
    rw [show processDeletions cfg ctx items =
        items.foldl (engineDeleteItem cfg ctx) (previewState cfg items) from by
      unfold processDeletions
      rw [if_neg hempty, if_neg hgate]]
    rcases foldl_dryRun cfg ctx hdry items (previewState cfg items) with ⟨h1, h2, h3⟩
    rw [previewState_deletedItems] at h1
    rw [previewState_failedDeletions] at h2
    rw [previewState_rmCalls] at h3
    refine ⟨h3, h2, by simpa using h1, ?_⟩
    simp [getSummary, h1]

/-- C2 witness: a concrete dry run over two items with every unsafe
flag set: no removal attempted, both recorded, deleted == total. -/
theorem dryRun_no_mutation_witness :
    (processDeletions
      { dryRun := true, interactive := true, force := true, preview := true,
        outputFormat := .plain, maxDepth := none, filesPattern := some "*.tmp",
        foldersPattern := none, typesPattern := none, excludePatterns := [] }
      ⟨fun _ => .file, fun _ => true, fun _ => false, false⟩
      ["a.tmp", "b.tmp"]).rmCalls = [] ∧
    (processDeletions
      { dryRun := true, interactive := true, force := true, preview := true,
        outputFormat := .plain, maxDepth := none, filesPattern := some "*.tmp",
        foldersPattern := none, typesPattern := none, excludePatterns := [] }
      ⟨fun _ => .file, fun _ => true, fun _ => false, false⟩
      ["a.tmp", "b.tmp"]).deletedItems = ["a.tmp", "b.tmp"] := by
  rcases dryRun_no_mutation
    { dryRun := true, interactive := true, force := true, preview := true,
      outputFormat := .plain, maxDepth := none, filesPattern := some "*.tmp",
      foldersPattern := none, typesPattern := none, excludePatterns := [] }
    ⟨fun _ => .file, fun _ => true, fun _ => false, false⟩
    ["a.tmp", "b.tmp"] rfl with ⟨h1, _, h3, _⟩
  exact ⟨h1, h3⟩

/-- C9: with preview set and neither dryRun nor force, a declined batch
confirmation halts the run with zero items processed and zero removal
attempts, nothing recorded as deleted or failed, exit code 0, and a log
showing exactly the displayed worklist heading and the cancellation. -/
theorem preview_decline_aborts :
    ∀ (cfg : Config) (ctx : DelCtx) (items : List String),
      cfg.preview = true → cfg.dryRun = false → cfg.force = false → ctx.proceed = false →
      (processDeletions cfg ctx items).deletedItems = [] ∧
      (processDeletions cfg ctx items).failedDeletions = [] ∧
      (processDeletions cfg ctx items).rmCalls = [] ∧
      getExitCode (processDeletions cfg ctx items) = 0 ∧
      (items ≠ [] →
        (processDeletions cfg ctx items).log =
          [(previewHeader items.length, .INFO), ("Deletion cancelled by user.", .INFO)]) := by
  intro cfg ctx items hp hdry hf hpr
  by_cases hempty : items.isEmpty
  · have : items = [] := by simpa using hempty
    subst this
    simp [processDeletions, initDelState, getExitCode]
  · have hgate : (cfg.preview && !cfg.dryRun && !cfg.force && !confirmProceed ctx) = true := by
      simp [hp, hdry, hf, confirmProceed, hpr]
    rw [show processDeletions cfg ctx items =
        { previewState cfg items with
            log := (previewState cfg items).log ++ [("Deletion cancelled by user.", .INFO)] }
      from by
        unfold processDeletions
        rw [if_neg hempty, if_pos hgate]]
    have hps : previewState cfg items =
        { deletedItems := [], failedDeletions := [], rmCalls := [],
          log := [(previewHeader items.length, .INFO)] } := by
      unfold previewState
      rw [if_pos hp]
      rfl
    rw [hps]
    simp [getExitCode]

/-- C9 witness: a concrete previewed batch declined by the operator. -/
theorem preview_decline_aborts_witness :
    (processDeletions
      { dryRun := false, interactive := false, force := false, preview := true,
        outputFormat := .plain, maxDepth := none, filesPattern := some "*.tmp",
        foldersPattern := none, typesPattern := none, excludePatterns := [] }
      ⟨fun _ => .file, fun _ => true, fun _ => true, false⟩
      ["a.tmp"]).rmCalls = [] ∧
    getExitCode (processDeletions
      { dryRun := false, interactive := false, force := false, preview := true,
        outputFormat := .plain, maxDepth := none, filesPattern := some "*.tmp",
        foldersPattern := none, typesPattern := none, excludePatterns := [] }
      ⟨fun _ => .file, fun _ => true, fun _ => true, false⟩
      ["a.tmp"]) = 0 := by
  rcases preview_decline_aborts
    { dryRun := false, interactive := false, force := false, preview := true,
      outputFormat := .plain, maxDepth := none, filesPattern := some "*.tmp",
      foldersPattern := none, typesPattern := none, excludePatterns := [] }
    ⟨fun _ => .file, fun _ => true, fun _ => true, false⟩
    ["a.tmp"] rfl rfl rfl rfl with ⟨_, _, h3, h4, _⟩
  exact ⟨h3, h4⟩

/-- C10: a worklist item that is neither a regular file nor a directory
at removal time (vanished, FIFO, socket, broken symlink) only gets the
"Item not found or already deleted" WARNING log line: no removal is
attempted for it, it enters neither the deleted nor the failed list (so
it can never affect the exit code, which depends only on the failed
list), and processing continues with the remaining items. -/
theorem vanished_item_contract :
    ∀ (cfg : Config) (ctx : DelCtx) (items : List String) (x : String),
      cfg.dryRun = false →
      (ctx.stat x = .other ∨ ctx.stat x = .absent) →
      (cfg.interactive = true → confirmDeletion ctx x cfg.force = true) →
      (cfg.preview = true → cfg.force = false → confirmProceed ctx = true) →
      x ∈ items →
      (notFoundMsg x, LogLevel.WARNING) ∈ (processDeletions cfg ctx items).log ∧
      x ∉ (processDeletions cfg ctx items).deletedItems ∧
      x ∉ (processDeletions cfg ctx items).failedDeletions ∧
      x ∉ (processDeletions cfg ctx items).rmCalls := by
  intro cfg ctx items x hdry hstat hconf hgatep hx
  have hne : ¬ items.isEmpty = true := by
    cases items with
    | nil => cases hx
    | cons a l => simp
  have hgatef : (cfg.preview && !cfg.dryRun && !cfg.force && !confirmProceed ctx) = false := by
    by_cases hp : cfg.preview = true
    · by_cases hfo : cfg.force = true
      · simp [hfo]
      · have hfo' : cfg.force = false := by simpa using hfo
        simp [hgatep hp hfo']
    · have hp' : cfg.preview = false := by simpa using hp
      simp [hp']
  rw [show processDeletions cfg ctx items =
      items.foldl (engineDeleteItem cfg ctx) (previewState cfg items) from by
    unfold processDeletions
    rw [if_neg hne, if_neg (by simp [hgatef])]]
  refine ⟨?_, ?_⟩
  · exact foldl_vanished_warn cfg ctx hdry x hstat hconf items _ hx
  · exact foldl_vanished_not_mem cfg ctx hdry x hstat items _
      (by rw [previewState_deletedItems]; exact List.not_mem_nil x)
      (by rw [previewState_failedDeletions]; exact List.not_mem_nil x)
      (by rw [previewState_rmCalls]; exact List.not_mem_nil x)

/-- C10 witness: a two-item worklist whose first item is absent at
removal time: the warning is logged and the item is in no outcome
list. -/
theorem vanished_item_contract_witness :
    (notFoundMsg "gone.tmp", LogLevel.WARNING) ∈
      (processDeletions
        { dryRun := false, interactive := false, force := false, preview := false,
          outputFormat := .plain, maxDepth := none, filesPattern := some "*.tmp",
          foldersPattern := none, typesPattern := none, excludePatterns := [] }
        ⟨fun p => if p == "gone.tmp" then .absent else .file, fun _ => true,
          fun _ => true, true⟩
        ["gone.tmp", "kept.tmp"]).log ∧
    "gone.tmp" ∉
      (processDeletions
        { dryRun := false, interactive := false, force := false, preview := false,
          outputFormat := .plain, maxDepth := none, filesPattern := some "*.tmp",
          foldersPattern := none, typesPattern := none, excludePatterns := [] }
        ⟨fun p => if p == "gone.tmp" then .absent else .file, fun _ => true,
          fun _ => true, true⟩
        ["gone.tmp", "kept.tmp"]).failedDeletions := by
  rcases vanished_item_contract
    { dryRun := false, interactive := false, force := false, preview := false,
      outputFormat := .plain, maxDepth := none, filesPattern := some "*.tmp",
      foldersPattern := none, typesPattern := none, excludePatterns := [] }
    ⟨fun p => if p == "gone.tmp" then .absent else .file, fun _ => true,
      fun _ => true, true⟩
    ["gone.tmp", "kept.tmp"] "gone.tmp" rfl (by simp) (by simp)
    (fun _ _ => rfl) (by decide) with ⟨h1, _, h3, _⟩
  exact ⟨h1, h3⟩

/-! ## Claim C3: the exit-code contract and configuration validation -/

/-- C3 counterexample: the claim that an unrecognized output-format
value is rejected with a non-zero exit before any traversal is false:
`main` computes `outputFormat` as `options.format === 'json' ? 'json'
: 'plain'`, so `--format xml` is silently coerced to `plain`, every
validation check passes, and the run reaches the traversal. -/
theorem format_not_rejected :
    ¬ (∀ o : RawOptions, ¬ o.format = "plain" → ¬ o.format = "json" →
        ∃ c, c ≠ 0 ∧ mainValidate o = .rejected c) := by
  intro h
  obtain ⟨c, _, hrej⟩ := h c3Options (by decide) (by decide)
  rw [show mainValidate c3Options = .ran (buildConfig c3Options) from by decide] at hrej
  exact MainOutcome.noConfusion hrej

/-- C3 (amended): the engine's exit code is 1 exactly when the failed
list is non-empty, and every entry of that list is a worklist item
whose removal was attempted and failed; an interactive run in which
every per-item prompt is declined, and a previewed run whose batch
confirmation is declined, both exit 0.  Of the claimed configuration
rejections, only the depth check rejects with exit code 1 before any
traversal (given that a pattern is present, so the earlier check does
not fire first): a configuration with no pattern supplied does stop
before any traversal, but `program.help()` exits the process with code
0 and the `process.exit(1)` after it is unreachable; and an
unrecognized output-format value is NOT rejected at all — it is
silently coerced to `plain` and the run proceeds to the traversal. -/
theorem exit_code_contract :
    (∀ (cfg : Config) (ctx : DelCtx) (items : List String),
        getExitCode (processDeletions cfg ctx items) = 1 ↔
          (processDeletions cfg ctx items).failedDeletions ≠ []) ∧
    (∀ (cfg : Config) (ctx : DelCtx) (items : List String) (x : String),
        x ∈ (processDeletions cfg ctx items).failedDeletions →
          x ∈ items ∧ ctx.rmOk x = false ∧ (ctx.stat x = .file ∨ ctx.stat x = .dir)) ∧
    (∀ (cfg : Config) (ctx : DelCtx) (items : List String),
        cfg.dryRun = false → cfg.interactive = true → cfg.force = false →
        (∀ i, ctx.ans i = false) →
        getExitCode (processDeletions cfg ctx items) = 0) ∧
    (∀ (cfg : Config) (ctx : DelCtx) (items : List String),
        cfg.preview = true → cfg.dryRun = false → cfg.force = false →
        ctx.proceed = false →
        getExitCode (processDeletions cfg ctx items) = 0) ∧
    (∀ o : RawOptions,
        optionFalsy o.files = true → optionFalsy o.folders = true →
        optionFalsy o.types = true → mainValidate o = .rejected 0) ∧
    (∀ o : RawOptions,
        ((optionFalsy o.files && optionFalsy o.folders) && optionFalsy o.types) = false →
        badDepth o.depth = true → mainValidate o = .rejected 1) ∧
    (∀ o : RawOptions,
        ((optionFalsy o.files && optionFalsy o.folders) && optionFalsy o.types) = false →
        badDepth o.depth = false → mainValidate o = .ran (buildConfig o)) ∧
    (∀ o : RawOptions, ¬ o.format = "json" → (buildConfig o).outputFormat = .plain) := by
  refine ⟨?_, ?_, ?_, ?_, ?_, ?_, ?_, ?_⟩
  · intro cfg ctx items
    exact getExitCode_eq_one_iff _
  · intro cfg ctx items x hx
    by_cases hempty : items.isEmpty = true
    · rw [processDeletions_empty cfg ctx items hempty] at hx
      simp [initDelState] at hx
    · by_cases hgate : (cfg.preview && !cfg.dryRun && !cfg.force && !confirmProceed ctx) = true
      · rw [processDeletions_cancelled cfg ctx items hempty hgate] at hx
        simp only at hx
        rw [previewState_failedDeletions] at hx
        exact absurd hx (List.not_mem_nil x)
      · rw [processDeletions_run cfg ctx items hempty hgate] at hx
        rcases foldl_failed_mem cfg ctx items (previewState cfg items) x hx with h | h
        · rw [previewState_failedDeletions] at h
          exact absurd h (List.not_mem_nil x)
        · exact h
  · intro cfg ctx items hdry hint hforce hans
    by_cases hempty : items.isEmpty = true
    · rw [processDeletions_empty cfg ctx items hempty]
      simp [getExitCode, initDelState]
    · by_cases hgate : (cfg.preview && !cfg.dryRun && !cfg.force && !confirmProceed ctx) = true
      · rw [processDeletions_cancelled cfg ctx items hempty hgate]
        simp [getExitCode, previewState_failedDeletions]
      · rw [processDeletions_run cfg ctx items hempty hgate]
        rcases foldl_all_declined cfg ctx hdry hint hforce hans items
          (previewState cfg items) with ⟨_, h2, _⟩
        simp [getExitCode, h2, previewState_failedDeletions]
  · intro cfg ctx items hp hdry hforce hpr
    by_cases hempty : items.isEmpty = true
    · rw [processDeletions_empty cfg ctx items hempty]
      simp [getExitCode, initDelState]
    · have hgate : (cfg.preview && !cfg.dryRun && !cfg.force && !confirmProceed ctx) = true := by
        simp [hp, hdry, hforce, confirmProceed, hpr]
      rw [processDeletions_cancelled cfg ctx items hempty hgate]
      simp [getExitCode, previewState_failedDeletions]
  · intro o h1 h2 h3
    simp only [mainValidate, buildConfig]
    rw [if_pos (by simp [h1, h2, h3])]
  · intro o hpat h
    simp only [mainValidate, buildConfig]
    rw [if_neg (by simp [hpat]), if_neg ?hfmt, if_pos h]
    case hfmt =>
      by_cases hj : (o.format == "json") = true <;> simp [hj]
  · intro o hpat hdep
    simp only [mainValidate, buildConfig]
    rw [if_neg (by simp [hpat]), if_neg ?hfmt, if_neg (by simp [hdep])]
    case hfmt =>
      by_cases hj : (o.format == "json") = true <;> simp [hj]
  · intro o h
    simp [buildConfig, h]

/-- C3 witness: the amended contract applied to concrete inputs: the
`--format xml` configuration reaches the traversal, the pattern-less
configuration stops before the traversal but with exit code 0 (via
`program.help()`), the zero-depth configuration is rejected with exit
code 1, and an interactive run in which the operator declines both
items exits 0. -/
theorem exit_code_contract_witness :
    mainValidate c3Options = .ran (buildConfig c3Options) ∧
    mainValidate { c3Options with files := none } = .rejected 0 ∧
    mainValidate { c3Options with depth := some (.num 0) } = .rejected 1 ∧
    getExitCode (processDeletions
      { dryRun := false, interactive := true, force := false, preview := false,
        outputFormat := .plain, maxDepth := none, filesPattern := some "*.tmp",
        foldersPattern := none, typesPattern := none, excludePatterns := [] }
      ⟨fun _ => .file, fun _ => true, fun _ => false, true⟩
      ["a.tmp", "b.tmp"]) = 0 := by
  refine ⟨?_, ?_, ?_, ?_⟩
  · exact exit_code_contract.2.2.2.2.2.2.1 c3Options (by decide) (by decide)
  · exact exit_code_contract.2.2.2.2.1 { c3Options with files := none }
      (by decide) (by decide) (by decide)
  · exact exit_code_contract.2.2.2.2.2.1 { c3Options with depth := some (.num 0) }
      (by decide) (by decide)
  · exact exit_code_contract.2.2.1
      { dryRun := false, interactive := true, force := false, preview := false,
        outputFormat := .plain, maxDepth := none, filesPattern := some "*.tmp",
        foldersPattern := none, typesPattern := none, excludePatterns := [] }
      ⟨fun _ => .file, fun _ => true, fun _ => false, true⟩
      ["a.tmp", "b.tmp"] rfl rfl rfl (fun _ => rfl)

/-! ## Lemmas about the traversal depth bounds -/

theorem patParses_total (pat : String) (h : patParses pat = true) :
    ∀ nm : String, (matchesPattern nm pat).isSome = true := by
  intro nm
  unfold matchesPattern
  unfold patParses at h
  cases hp : parseRegex (globTranslate pat.toList) with
  | none =>
    rw [hp] at h
    exact absurd h (by simp)
  | some ts => simp

theorem lastName_cons (n : String) (q : List String) (h : q ≠ []) :
    lastName (n :: q) = lastName q := by
  unfold lastName
  cases q with
  | nil => exact absurd rfl h
  | cons a l => simp [List.getLastD_cons]

theorem searchEntriesD_shape (pat : String) (m : Nat) :
    ∀ (es : FSForest) (depth : Nat) (pre p : List String),
      depth ≤ m →
      p ∈ searchEntriesD pat (some m) depth pre es →
      ∃ q, p = pre ++ q ∧ depth + q.length ≤ m + 1 := by
  intro es
  induction es with
  | nil => intro depth pre p _ hp; simp [searchEntriesD] at hp
  | fileCons nm rest ih =>
    intro depth pre p hd hp
    exact ih depth pre p hd hp
  | dirCons nm sub rest ihsub ihrest =>
    intro depth pre p hd hp
    simp only [searchEntriesD] at hp
    cases hm : matchesPattern nm pat with
    | none => rw [hm] at hp; simp at hp
    | some b =>
      rw [hm] at hp
      rcases List.mem_append.mp hp with hp1 | hp2
      · rcases List.mem_append.mp hp1 with hpa | hpb
        · have hpe : p = pre ++ [nm] := by
            by_cases hb : b = true
            · rw [if_pos hb] at hpa
              simpa using hpa
            · rw [if_neg hb] at hpa
              simp at hpa
          exact ⟨[nm], hpe, by simpa using Nat.succ_le_succ hd⟩
        · by_cases hg : depthExceeded (some m) (depth + 1) = true
          · rw [if_pos hg] at hpb
            simp at hpb
          · rw [if_neg hg] at hpb
            have hd1 : depth + 1 ≤ m := by
              simp only [depthExceeded, decide_eq_true_eq] at hg
              omega
            rcases ihsub (depth + 1) (pre ++ [nm]) p hd1 hpb with ⟨q, hq, hlen⟩
            exact ⟨nm :: q, by simp [hq], by simp at hlen ⊢; omega⟩
      · exact ihrest depth pre p hd hp2

theorem searchEntriesI_shape (pat : String) (m : Nat) :
    ∀ (es : FSForest) (depth : Nat) (pre p : List String),
      depth ≤ m →
      p ∈ searchEntriesI pat (some m) depth pre es →
      ∃ q, p = pre ++ q ∧ depth + q.length ≤ m + 1 := by
  intro es
  induction es with
  | nil => intro depth pre p _ hp; simp [searchEntriesI] at hp
  | fileCons nm rest ih =>
    intro depth pre p hd hp
    simp only [searchEntriesI] at hp
    cases hm : matchesPattern nm pat with
    | none => rw [hm] at hp; simp at hp
    | some b =>
      rw [hm] at hp
      rcases List.mem_append.mp hp with hpa | hpb
      · have hpe : p = pre ++ [nm] := by
          by_cases hb : b = true
          · rw [if_pos hb] at hpa
            simpa using hpa
          · rw [if_neg hb] at hpa
            simp at hpa
        exact ⟨[nm], hpe, by simpa using Nat.succ_le_succ hd⟩
      · exact ih depth pre p hd hpb
  | dirCons nm sub rest ihsub ihrest =>
    intro depth pre p hd hp
    simp only [searchEntriesI] at hp
    cases hm : matchesPattern nm pat with
    | none => rw [hm] at hp; simp at hp
    | some b =>
      rw [hm] at hp
      rcases List.mem_append.mp hp with hp1 | hp2
      · rcases List.mem_append.mp hp1 with hpa | hpb
        · have hpe : p = pre ++ [nm] := by
            by_cases hb : b = true
            · rw [if_pos hb] at hpa
              simpa using hpa
            · rw [if_neg hb] at hpa
              simp at hpa
          exact ⟨[nm], hpe, by simpa using Nat.succ_le_succ hd⟩
        · by_cases hg : depthExceeded (some m) (depth + 1) = true
          · rw [if_pos hg] at hpb
            simp at hpb
          · rw [if_neg hg] at hpb
            have hd1 : depth + 1 ≤ m := by
              simp only [depthExceeded, decide_eq_true_eq] at hg
              omega
            rcases ihsub (depth + 1) (pre ++ [nm]) p hd1 hpb with ⟨q, hq, hlen⟩
            exact ⟨nm :: q, by simp [hq], by simp at hlen ⊢; omega⟩
      · exact ihrest depth pre p hd hp2

theorem searchEntriesF_shape (pat : String) (m : Nat) :
    ∀ (es : FSForest) (pre p : List String),
      p ∈ searchEntriesF pat (some m) pre es →
      ∃ q, p = pre ++ q ∧ pre.length + q.length ≤ m := by
  intro es
  induction es with
  | nil => intro pre p hp; simp [searchEntriesF] at hp
  | fileCons nm rest ih =>
    intro pre p hp
    simp only [searchEntriesF] at hp
    rcases List.mem_append.mp hp with hpa | hpb
    · by_cases hc : (specGlobMatches pat.toList nm.toList &&
          depthWithin (some m) (pre.length + 1)) = true
      · rw [if_pos hc] at hpa
        have hpe : p = pre ++ [nm] := by simpa using hpa
        rcases Bool.and_eq_true .. |>.mp hc with ⟨_, hdw⟩
        simp only [depthWithin, decide_eq_true_eq] at hdw
        exact ⟨[nm], hpe, by simpa using hdw⟩
      · rw [if_neg hc] at hpa
        simp at hpa
    · exact ih pre p hpb
  | dirCons nm sub rest ihsub ihrest =>
    intro pre p hp
    simp only [searchEntriesF] at hp
    rcases List.mem_append.mp hp with hpa | hpb
    · by_cases hg : depthWithin (some m) (pre.length + 1) = true
      · rw [if_pos hg] at hpa
        rcases ihsub (pre ++ [nm]) p hpa with ⟨q, hq, hlen⟩
        exact ⟨nm :: q, by simp [hq], by simp at hlen ⊢; omega⟩
      · rw [if_neg hg] at hpa
        simp at hpa
    · exact ihrest pre p hpb

theorem dirAtPath_nil : ∀ es : FSForest, dirAtPath es [] = false := by
  intro es
  induction es <;> simp [dirAtPath, *]

theorem fileAtPath_nil : ∀ es : FSForest, fileAtPath es [] = false := by
  intro es
  induction es <;> simp [fileAtPath, *]

theorem searchEntriesD_complete (pat : String) (m : Nat)
    (htot : ∀ nm : String, (matchesPattern nm pat).isSome = true) :
    ∀ (es : FSForest) (p : List String) (depth : Nat) (pre : List String),
      dirAtPath es p = true →
      matchesPattern (lastName p) pat = some true →
      depth + p.length ≤ m + 1 →
      (pre ++ p) ∈ searchEntriesD pat (some m) depth pre es := by
  intro es
  induction es with
  | nil =>
    intro p depth pre hat _ _
    simp [dirAtPath] at hat
  | fileCons nm rest ih =>
    intro p depth pre hat hm hlen
    exact ih p depth pre hat hm hlen
  | dirCons nm sub rest ihsub ihrest =>
    intro p depth pre hat hm hlen
    cases p with
    | nil => simp [dirAtPath] at hat
    | cons n q =>
      obtain ⟨b, hb⟩ : ∃ b, matchesPattern nm pat = some b := by
        have h1 := htot nm
        cases hmm : matchesPattern nm pat with
        | none => rw [hmm] at h1; simp at h1
        | some b => exact ⟨b, rfl⟩
      simp only [dirAtPath, Bool.or_eq_true, Bool.and_eq_true, beq_iff_eq] at hat
      simp only [searchEntriesD, hb]
      rcases hat with ⟨heq, hsubq⟩ | hrest
      · subst heq
        rcases hsubq with hqe | hsq
        · have hq : q = [] := by simpa using hqe
          subst hq
          have hbt : b = true := by
            have hln : lastName [nm] = nm := rfl
            rw [hln] at hm
            rw [hm] at hb
            exact (Option.some.injEq .. ▸ hb.symm)
          subst hbt
          rw [if_pos rfl]
          exact List.mem_append.mpr (Or.inl (List.mem_append.mpr
            (Or.inl (List.mem_singleton.mpr rfl))))
        · have hqne : q ≠ [] := by
            intro hq
            subst hq
            rw [dirAtPath_nil sub] at hsq
            exact Bool.noConfusion hsq
          have hq1 : 0 < q.length := List.length_pos.mpr hqne
          have hlen' : (depth + 1) + q.length ≤ m + 1 := by
            simp only [List.length_cons] at hlen
            omega
          have hg : ¬ (depthExceeded (some m) (depth + 1) = true) := by
            simp only [depthExceeded, decide_eq_true_eq]
            omega
          rw [if_neg hg]
          have hm' : matchesPattern (lastName q) pat = some true := by
            rw [← lastName_cons nm q hqne]
            exact hm
          have hmem := ihsub q (depth + 1) (pre ++ [nm]) hsq hm' hlen'
          refine List.mem_append.mpr (Or.inl (List.mem_append.mpr (Or.inr ?_)))
          simpa using hmem
      · exact List.mem_append.mpr (Or.inr (ihrest (n :: q) depth pre hrest hm hlen))

theorem searchEntriesI_complete (pat : String) (m : Nat)
    (htot : ∀ nm : String, (matchesPattern nm pat).isSome = true) :
    ∀ (es : FSForest) (p : List String) (depth : Nat) (pre : List String),
      (dirAtPath es p || fileAtPath es p) = true →
      matchesPattern (lastName p) pat = some true →
      depth + p.length ≤ m + 1 →
      (pre ++ p) ∈ searchEntriesI pat (some m) depth pre es := by
  intro es
  induction es with
  | nil =>
    intro p depth pre hat _ _
    simp [dirAtPath, fileAtPath] at hat
  | fileCons nm rest ih =>
    intro p depth pre hat hm hlen
    obtain ⟨b, hb⟩ : ∃ b, matchesPattern nm pat = some b := by
      have h1 := htot nm
      cases hmm : matchesPattern nm pat with
      | none => rw [hmm] at h1; simp at h1
      | some b => exact ⟨b, rfl⟩
    simp only [searchEntriesI, hb]
    simp only [dirAtPath, fileAtPath, Bool.or_eq_true] at hat
    rcases hat with hdr | hfc
    · exact List.mem_append.mpr (Or.inr (ih p depth pre (by simp [hdr]) hm hlen))
    · rcases hfc with hhead | hfr
      · cases p with
        | nil => simp at hhead
        | cons n q =>
          cases q with
          | cons a l => simp at hhead
          | nil =>
            have heq : nm = n := by simpa using hhead
            subst heq
            have hbt : b = true := by
              have hln : lastName [nm] = nm := rfl
              rw [hln] at hm
              rw [hm] at hb
              exact (Option.some.injEq .. ▸ hb.symm)
            subst hbt
            rw [if_pos rfl]
            exact List.mem_append.mpr (Or.inl (List.mem_singleton.mpr rfl))
      · exact List.mem_append.mpr (Or.inr (ih p depth pre (by simp [hfr]) hm hlen))
  | dirCons nm sub rest ihsub ihrest =>
    intro p depth pre hat hm hlen
    cases p with
    | nil => simp [dirAtPath, fileAtPath] at hat
    | cons n q =>
      obtain ⟨b, hb⟩ : ∃ b, matchesPattern nm pat = some b := by
        have h1 := htot nm
        cases hmm : matchesPattern nm pat with
        | none => rw [hmm] at h1; simp at h1
        | some b => exact ⟨b, rfl⟩
      simp only [searchEntriesI, hb]
      simp only [dirAtPath, fileAtPath, Bool.or_eq_true, Bool.and_eq_true,
        beq_iff_eq] at hat
      rcases hat with (⟨heq, hsubq⟩ | hdr) | (⟨⟨heq, hne⟩, hsf⟩ | hfr)
      · subst heq
        rcases hsubq with hqe | hsq
        · have hq : q = [] := by simpa using hqe
          subst hq
          have hbt : b = true := by
            have hln : lastName [nm] = nm := rfl
            rw [hln] at hm
            rw [hm] at hb
            exact (Option.some.injEq .. ▸ hb.symm)
          subst hbt
          rw [if_pos rfl]
          exact List.mem_append.mpr (Or.inl (List.mem_append.mpr
            (Or.inl (List.mem_singleton.mpr rfl))))
        · have hqne : q ≠ [] := by
            intro hq
            subst hq
            rw [dirAtPath_nil sub] at hsq
            exact Bool.noConfusion hsq
          have hq1 : 0 < q.length := List.length_pos.mpr hqne
          have hlen' : (depth + 1) + q.length ≤ m + 1 := by
            simp only [List.length_cons] at hlen
            omega
          have hg : ¬ (depthExceeded (some m) (depth + 1) = true) := by
            simp only [depthExceeded, decide_eq_true_eq]
            omega
          rw [if_neg hg]
          have hm' : matchesPattern (lastName q) pat = some true := by
            rw [← lastName_cons nm q hqne]
            exact hm
          have hmem := ihsub q (depth + 1) (pre ++ [nm]) (by simp [hsq]) hm' hlen'
          refine List.mem_append.mpr (Or.inl (List.mem_append.mpr (Or.inr ?_)))
          simpa using hmem
      · exact List.mem_append.mpr (Or.inr (ihrest (n :: q) depth pre
          (by simp [hdr]) hm hlen))
      · subst heq
        have hqne : q ≠ [] := by
          intro hq
          subst hq
          simp at hne
        have hq1 : 0 < q.length := List.length_pos.mpr hqne
        have hlen' : (depth + 1) + q.length ≤ m + 1 := by
          simp only [List.length_cons] at hlen
          omega
        have hg : ¬ (depthExceeded (some m) (depth + 1) = true) := by
          simp only [depthExceeded, decide_eq_true_eq]
          omega
        rw [if_neg hg]
        have hm' : matchesPattern (lastName q) pat = some true := by
          rw [← lastName_cons nm q hqne]
          exact hm
        have hmem := ihsub q (depth + 1) (pre ++ [nm]) (by simp [hsf]) hm' hlen'
        refine List.mem_append.mpr (Or.inl (List.mem_append.mpr (Or.inr ?_)))
        simpa using hmem
      · exact List.mem_append.mpr (Or.inr (ihrest (n :: q) depth pre
          (by simp [hfr]) hm hlen))

theorem searchEntriesF_complete (pat : String) (m : Nat) :
    ∀ (es : FSForest) (p : List String) (pre : List String),
      fileAtPath es p = true →
      specGlobMatches pat.toList (lastName p).toList = true →
      pre.length + p.length ≤ m →
      (pre ++ p) ∈ searchEntriesF pat (some m) pre es := by
  intro es
  induction es with
  | nil =>
    intro p pre hat _ _
    simp [fileAtPath] at hat
  | fileCons nm rest ih =>
    intro p pre hat hm hlen
    simp only [searchEntriesF]
    simp only [fileAtPath, Bool.or_eq_true] at hat
    rcases hat with hhead | hfr
    · cases p with
      | nil => simp at hhead
      | cons n q =>
        cases q with
        | cons a l => simp at hhead
        | nil =>
          have heq : nm = n := by simpa using hhead
          subst heq
          have hln : lastName [nm] = nm := rfl
          rw [hln] at hm
          have hdw : depthWithin (some m) (pre.length + 1) = true := by
            simp only [List.length_cons, List.length_nil] at hlen
            simp only [depthWithin, decide_eq_true_eq]
            omega
          rw [if_pos (by rw [hm, hdw]; rfl)]
          exact List.mem_append.mpr (Or.inl (List.mem_singleton.mpr rfl))
    · exact List.mem_append.mpr (Or.inr (ih p pre hfr hm hlen))
  | dirCons nm sub rest ihsub ihrest =>
    intro p pre hat hm hlen
    cases p with
    | nil => simp [fileAtPath] at hat
    | cons n q =>
      simp only [searchEntriesF]
      simp only [fileAtPath, Bool.or_eq_true, Bool.and_eq_true, beq_iff_eq] at hat
      rcases hat with ⟨⟨heq, hne⟩, hsf⟩ | hfr
      · subst heq
        have hqne : q ≠ [] := by
          intro hq
          subst hq
          simp at hne
        have hq1 : 0 < q.length := List.length_pos.mpr hqne
        have hlen' : (pre ++ [nm]).length + q.length ≤ m := by
          simp only [List.length_cons, List.length_append, List.length_nil] at hlen ⊢
          omega
        have hg : depthWithin (some m) (pre.length + 1) = true := by
          simp only [List.length_cons] at hlen
          simp only [depthWithin, decide_eq_true_eq]
          omega
        rw [if_pos hg]
        have hm' : specGlobMatches pat.toList (lastName q).toList = true := by
          rw [← lastName_cons nm q hqne]
          exact hm
        have hmem := ihsub q (pre ++ [nm]) hsf hm' hlen'
        refine List.mem_append.mpr (Or.inl ?_)
        simpa using hmem
      · exact List.mem_append.mpr (Or.inr (ihrest (n :: q) pre hfr hm hlen))

/-! ## Claim C1: the traversal depth bound -/

/-- C1 counterexample: the claim that an entry at depth `maxDepth + 1`
is never included fails for the Folders traversal: `searchDir` checks
`currentDepth > maxDepth` at entry and pushes matching entries one
level deeper, so with `maxDepth = 1` the tree `sub/cache` yields the
candidate `sub/cache`, whose depth 2 (root 0, immediate entries depth
1) exceeds the bound the claim states. -/
theorem depth_bound_violated :
    ¬ (∀ (pat : String) (m : Nat) (root : FSForest) (p : List String),
        p ∈ findDirectoriesPaths pat (some m) root → p.length ≤ m) := by
  intro h
  have h2 := h "cache" 1 (.dirCons "sub" (.dirCons "cache" .nil .nil) .nil)
    ["sub", "cache"] (by decide)
  exact absurd h2 (by decide)

/-- C1 (amended): with a configured maximum depth (root at depth 0,
the root's immediate entries at depth 1), the Folders and Mixed
traversals include an entry at depth `d` only if `d <= maxDepth + 1`
— so an entry at depth `maxDepth + 2` is never included — and an entry
at depth up to and including `maxDepth + 1` is included whenever it is
of the right kind and its name matches a parseable pattern; the Files
traversal is delegated to the external `glob` library and, modelled
from the spec, includes a file at depth `d` exactly when `d <= maxDepth`
and its name matches. -/
theorem traversal_depth_contract :
    (∀ (pat : String) (m : Nat) (root : FSForest) (p : List String),
        p ∈ findDirectoriesPaths pat (some m) root → p.length ≤ m + 1) ∧
    (∀ (pat : String) (m : Nat) (root : FSForest) (p : List String),
        p ∈ findItemsPaths pat (some m) root → p.length ≤ m + 1) ∧
    (∀ (pat : String) (m : Nat) (root : FSForest) (p : List String),
        p ∈ findFilesPaths pat (some m) root → p.length ≤ m) ∧
    (∀ (pat : String) (m : Nat) (root : FSForest) (p : List String),
        patParses pat = true → dirAtPath root p = true →
        matchesPattern (lastName p) pat = some true → p.length ≤ m + 1 →
        p ∈ findDirectoriesPaths pat (some m) root) ∧
    (∀ (pat : String) (m : Nat) (root : FSForest) (p : List String),
        patParses pat = true →
        (dirAtPath root p || fileAtPath root p) = true →
        matchesPattern (lastName p) pat = some true → p.length ≤ m + 1 →
        p ∈ findItemsPaths pat (some m) root) ∧
    (∀ (pat : String) (m : Nat) (root : FSForest) (p : List String),
        fileAtPath root p = true →
        specGlobMatches pat.toList (lastName p).toList = true → p.length ≤ m →
        p ∈ findFilesPaths pat (some m) root) := by
  refine ⟨?_, ?_, ?_, ?_, ?_, ?_⟩
  · intro pat m root p hp
    unfold findDirectoriesPaths at hp
    rw [if_neg (by simp [depthExceeded])] at hp
    rcases searchEntriesD_shape pat m root 0 [] p (Nat.zero_le m) hp with ⟨q, hq, hlen⟩
    rw [hq]
    simpa using hlen
  · intro pat m root p hp
    unfold findItemsPaths at hp
    rw [if_neg (by simp [depthExceeded])] at hp
    rcases searchEntriesI_shape pat m root 0 [] p (Nat.zero_le m) hp with ⟨q, hq, hlen⟩
    rw [hq]
    simpa using hlen
  · intro pat m root p hp
    unfold findFilesPaths at hp
    rcases searchEntriesF_shape pat m root [] p hp with ⟨q, hq, hlen⟩
    rw [hq]
    simpa using hlen
  · intro pat m root p hpp hat hm hlen
    unfold findDirectoriesPaths
    rw [if_neg (by simp [depthExceeded])]
    have hmem := searchEntriesD_complete pat m (patParses_total pat hpp) root p 0 []
      hat hm (by omega)
    simpa using hmem
  · intro pat m root p hpp hat hm hlen
    unfold findItemsPaths
    rw [if_neg (by simp [depthExceeded])]
    have hmem := searchEntriesI_complete pat m (patParses_total pat hpp) root p 0 []
      hat hm (by omega)
    simpa using hmem
  · intro pat m root p hat hm hlen
    unfold findFilesPaths
    have hmem := searchEntriesF_complete pat m root p [] hat hm (by simpa using hlen)
    simpa using hmem

/-- C1 witness: the amended theorem applied to concrete trees: the
Folders traversal includes `sub/cache` at depth `maxDepth + 1 = 2`, and
the spec-modelled Files traversal includes a top-level file at depth
`maxDepth = 1`. -/
theorem traversal_depth_contract_witness :
    ["sub", "cache"] ∈ findDirectoriesPaths "cache" (some 1)
      (.dirCons "sub" (.dirCons "cache" .nil .nil) .nil) ∧
    ["x.tmp"] ∈ findFilesPaths "*.tmp" (some 1) (.fileCons "x.tmp" .nil) := by
  constructor
  · exact traversal_depth_contract.2.2.2.1 "cache" 1
      (.dirCons "sub" (.dirCons "cache" .nil .nil) .nil) ["sub", "cache"]
      (by decide) (by decide) (by decide) (by decide)
  · exact traversal_depth_contract.2.2.2.2.2 "*.tmp" 1
      (.fileCons "x.tmp" .nil) ["x.tmp"] (by decide) (by decide) (by decide)

end Cull
